import Mathlib

/-!
Shallow embedding of the flexx asset system (files `flexx/app/asset.py` and
`flexx/app/assetstore.py`) together with proofs about its dependency solver,
bundles, asset store and session overlay.

Conventions used throughout:
* Python exceptions are modelled by the `PyErr` type; fallible operations
  return `Except PyErr α`.  The `fuelOut` constructor is a modelling artifact
  used to make unbounded `while` loops structurally recursive; the lemmas
  below show it is unreachable with the fuel the embedded code supplies.
* Python strings are Lean `String`s; `startswith`, `lower`, `strip`,
  `rsplit` and friends are re-implemented on character lists.
* Python `bytes` values are modelled as `List UInt8`.
* Python `dict`/`OrderedDict` registries are modelled as insertion-ordered
  association lists `List (String × α)` with first-match lookup (keys are
  unique because every insertion is guarded by a membership check).
-/

/-- Python exception kinds raised by the embedded code.  `fuelOut` is a
modelling artifact for loop fuel exhaustion and is proved unreachable. -/
inductive PyErr where
  | typeError
  | valueError
  | runtimeError
  | keyError
  | attributeError
  | fuelOut
deriving DecidableEq, Repr

/-! ### String helpers (Python semantics on character lists) -/

/-- Python `s.startswith(pre)`: `pre` is a character-wise prefix of `s`. -/
def isPre : List Char → List Char → Bool
  | [], _ => true
  | _ :: _, [] => false
  | a :: as, b :: bs => a = b && isPre as bs

/-- Python `s.startswith(pre)` on `String`s. -/
def pyStartswith (s pre : String) : Bool :=
  isPre pre.data s.data

/-- Python `s.endswith(suf)`: `suf` is a character-wise suffix of `s`. -/
def pyEndswith (s suf : String) : Bool :=
  isPre suf.data.reverse s.data.reverse

/-- Python `s.lower()` (ASCII case folding, which is all the sources use). -/
def pyLower (s : String) : String :=
  ⟨s.data.map Char.toLower⟩

/-- Whether a name has the `.js` suffix after lower-casing (the check the
source performs with `name.lower().endswith('.js')`). -/
def isJsName (s : String) : Bool :=
  pyEndswith (pyLower s) ".js"

/-- Whether a name has the `.css` suffix after lower-casing. -/
def isCssName (s : String) : Bool :=
  pyEndswith (pyLower s) ".css"

/-- The check `name.lower().endswith(('.js', '.css'))` used throughout. -/
def suffixOk (s : String) : Bool :=
  isJsName s || isCssName s

/-- Everything before the last `'.'` of a character list, or `none` when the
list has no `'.'`.  This is Python `s.rsplit('.', 1)[0]` (in the `some` case)
and also decides Python's `'.' in s` (the `none` case). -/
def lastDotSplit : List Char → Option (List Char)
  | [] => none
  | c :: rest =>
    match lastDotSplit rest with
    | some r => some (c :: r)
    | none => if c = '.' then some [] else none

theorem lastDotSplit_length : ∀ {cs r : List Char},
    lastDotSplit cs = some r → r.length < cs.length := by
  intro cs
  induction cs with
  | nil => intro r h; simp [lastDotSplit] at h
  | cons c rest ih =>
    intro r h
    simp only [lastDotSplit] at h
    cases hr : lastDotSplit rest with
    | some r₀ =>
      rw [hr] at h
      cases h
      have := ih hr
      simpa using Nat.succ_lt_succ this
    | none =>
      rw [hr] at h
      by_cases hc : c = '.'
      · simp [hc] at h
        cases h
        simp
      · simp [hc] at h

/-- Python `s.rsplit('.', 1)[0]`: the part before the last dot, or the whole
string when there is no dot. -/
def rsplitDotHead (s : String) : String :=
  match lastDotSplit s.data with
  | some r => ⟨r⟩
  | none => s

/-- Python `s.split('-')[0]`: the part before the first dash, or the whole
string when there is no dash. -/
def splitDashHead (s : String) : String :=
  ⟨s.data.takeWhile (fun c => c ≠ '-')⟩

/-- Python `s.strip()`: drop whitespace from both ends. -/
def pyStrip (s : String) : String :=
  ⟨(s.data.dropWhile Char.isWhitespace).reverse.dropWhile Char.isWhitespace |>.reverse⟩

/-- Python `'\n' in s`. -/
def hasNewline (s : String) : Bool :=
  s.data.contains '\n'

/-- Whether a string is a URI in the sense of the sources: it starts with
`http://`, `https://` or `file://`. -/
def isUri (s : String) : Bool :=
  pyStartswith s "http://" || pyStartswith s "https://" || pyStartswith s "file://"

/-- First index at which `sub` occurs as a contiguous sublist, if any
(Python `s.find(sub)` restricted to found/not-found). -/
def firstSubIdx (sub : List Char) : List Char → Option Nat
  | [] => if sub = [] then some 0 else none
  | c :: rest =>
    if isPre sub (c :: rest) then some 0
    else (firstSubIdx sub rest).map (· + 1)

/-- Python `d.split(' as ')[0]`: the part before the first occurrence of
`" as "`, or the whole string. -/
def splitAsHead (s : String) : String :=
  match firstSubIdx " as ".data s.data with
  | some i => ⟨s.data.take i⟩
  | none => s

/-- Python `' as ' in d`. -/
def hasAs (s : String) : Bool :=
  (firstSubIdx " as ".data s.data).isSome

/-- Python `name.replace('\\', '/').split('/')[-1]`: the basename used for
remote asset names. -/
def uriBasename (s : String) : String :=
  ⟨((s.data.map (fun c => if c = '\\' then '/' else c)).reverse.takeWhile
      (fun c => c ≠ '/')).reverse⟩

/-! ### The dependency solver (`asset.py`, `solve_dependencies`)

The Python function sorts a list of objects carrying `name` and `deps`
in place.  We model the objects with `Thing` and the in-place algorithm as a
pure function returning `Except PyErr (List Thing)`; the
`RuntimeError('Detected circular dependency!')` raise is `.error .runtimeError`.
-/

/-- An item handled by `solve_dependencies`: anything with a `name` and a
`deps` attribute (used both for JS modules and in tests). -/
structure Thing where
  name : String
  deps : List String
deriving DecidableEq, Repr

/-- The list of names of a list of things (the solver's `names` list). -/
def namesOf (things : List Thing) : List String :=
  things.map Thing.name

/-- Python `names.index(d)` as an option: index of the first occurrence. -/
def firstIdx (d : String) : List String → Option Nat
  | [] => none
  | x :: xs => if x = d then some 0 else (firstIdx d xs).map (· + 1)

/-- The solver's `thingmap` lookup: `dict([(n, t) for n, t in zip(names,
things)])` maps each name to the *last* thing carrying it, and the solver
reads `thingmap[name].deps`.  The `[]` default is unreachable because the
working list stays a permutation of `orig` (every looked-up name is a key). -/
def thingmapDeps (orig : List Thing) (n : String) : List String :=
  match orig.reverse.find? (fun t => t.name = n) with
  | some t => t.deps
  | none => []

/-- One in-place move `names.insert(index, names.pop(j))` (and the parallel
move on `things`): remove the element at `j` and re-insert it at `index`. -/
def moveDep (l : List Thing) (j index : Nat) : List Thing :=
  match l.get? j with
  | some x => List.insertIdx index x (l.eraseIdx j)
  | none => l

/-- The `for dep in thingmap[name].deps` scan: find the first dependency that
is present in `names` at a position `j > index`, and perform the move; `none`
when the scan finishes without a move (the loop's `else: break`).  A missing
dependency only triggers an optional warning and is skipped. -/
def scanDeps (l : List Thing) (index : Nat) : List String → Option (List Thing)
  | [] => none
  | d :: rest =>
    match firstIdx d (namesOf l) with
    | none => scanDeps l index rest
    | some j => if index < j then some (moveDep l j index) else scanDeps l index rest

/-- The inner `while True` loop of `solve_dependencies` at a fixed `index`,
with its `seen_names` set.  `fuel` makes the loop structurally recursive;
`innerLoop_no_fuelOut` shows the fuel supplied by `solve_dependencies` is
never exhausted. -/
def innerLoop (orig : List Thing) (index : Nat) :
    List Thing → List String → Nat → Except PyErr (List Thing)
  | _, _, 0 => .error .fuelOut
  | l, seen, fuel + 1 =>
    let nm := (namesOf l).getD index ""
    if nm ∈ seen then .error .runtimeError
    else
      match scanDeps l index (thingmapDeps orig nm) with
      | none => .ok l
      | some l₂ => innerLoop orig index l₂ (nm :: seen) fuel

/-- The outer `for index in range(len(names))` loop; `k` counts the remaining
indices (Python evaluates `range(len(names))` once, and the length never
changes). -/
def outerLoop (orig : List Thing) : List Thing → Nat → Nat → Except PyErr (List Thing)
  | l, _, 0 => .ok l
  | l, index, k + 1 =>
    match innerLoop orig index l [] (l.length + 1) with
    | .error e => .error e
    | .ok l₂ => outerLoop orig l₂ (index + 1) k

/-- `solve_dependencies(things)` from `asset.py` (the in-place result list,
or the `RuntimeError` raised on a detected circular dependency).  The
`warn_missing` flag only controls logging and has no effect on the result. -/
def solve_dependencies (things : List Thing) : Except PyErr (List Thing) :=
  outerLoop things things 0 things.length

example : solve_dependencies [⟨"b.js", ["a.js"]⟩, ⟨"a.js", []⟩] =
    .ok [⟨"a.js", []⟩, ⟨"b.js", ["a.js"]⟩] := rfl

example : solve_dependencies [⟨"a.js", ["b.js"]⟩, ⟨"b.js", ["a.js"]⟩] =
    .error .runtimeError := rfl

example : solve_dependencies [⟨"a.js", ["a.js"]⟩] =
    .ok [⟨"a.js", ["a.js"]⟩] := rfl

/-! ### Solver lemmas: `firstIdx`, `moveDep`, `scanDeps` -/

theorem firstIdx_eq_some_iff {d : String} {ns : List String} {j : Nat} :
    firstIdx d ns = some j ↔ ns[j]? = some d ∧ ∀ p, p < j → ns[p]? ≠ some d := by
  induction ns generalizing j with
  | nil => simp [firstIdx]
  | cons x xs ih =>
    by_cases hx : x = d
    · subst hx
      simp only [firstIdx, if_pos rfl]
      constructor
      · intro h
        cases h
        exact ⟨by simp, by omega⟩
      · intro ⟨h1, h2⟩
        cases j with
        | zero => rfl
        | succ j => exact ((h2 0 (Nat.succ_pos j)) (by simp)).elim
    · simp only [firstIdx, if_neg hx]
      constructor
      · intro h
        obtain ⟨a, ha, haj⟩ := Option.map_eq_some'.mp h
        subst haj
        obtain ⟨h1, h2⟩ := ih.mp ha
        refine ⟨by simpa using h1, ?_⟩
        intro p hp
        cases p with
        | zero =>
          simp only [List.getElem?_cons_zero]
          intro hc
          exact hx (Option.some.inj hc)
        | succ p => simpa using h2 p (by omega)
      · intro ⟨h1, h2⟩
        cases j with
        | zero =>
          exfalso
          apply hx
          have h1z : some x = some d := by simpa using h1
          exact Option.some.inj h1z
        | succ j =>
          have h1' : xs[j]? = some d := by simpa using h1
          have h2' : ∀ p, p < j → xs[p]? ≠ some d := by
            intro p hp hc
            exact h2 (p + 1) (by omega) (by simpa using hc)
          rw [ih.mpr ⟨h1', h2'⟩]
          rfl

theorem firstIdx_lt_length {d : String} {ns : List String} {j : Nat}
    (h : firstIdx d ns = some j) : j < ns.length :=
  (List.getElem?_eq_some.mp (firstIdx_eq_some_iff.mp h).1).1

theorem firstIdx_getElem {d : String} {ns : List String} {j : Nat}
    (h : firstIdx d ns = some j) : ns[j]? = some d :=
  (firstIdx_eq_some_iff.mp h).1

theorem firstIdx_isSome_of_mem {d : String} {ns : List String} (h : d ∈ ns) :
    (firstIdx d ns).isSome := by
  induction ns with
  | nil => simp at h
  | cons x xs ih =>
    by_cases hx : x = d
    · simp [firstIdx, hx]
    · have hmem : d ∈ xs := by
        cases h with
        | head => exact absurd rfl hx
        | tail _ h => exact h
      simp only [firstIdx, if_neg hx]
      have := ih hmem
      cases hfi : firstIdx d xs with
      | none => rw [hfi] at this; simp at this
      | some j => simp [hfi]

theorem firstIdx_of_nodup {d : String} {ns : List String} {q : Nat}
    (hnd : ns.Nodup) (hq : ns[q]? = some d) : firstIdx d ns = some q := by
  apply firstIdx_eq_some_iff.mpr
  refine ⟨hq, ?_⟩
  intro p hp hpd
  obtain ⟨hql, hqe⟩ := List.getElem?_eq_some.mp hq
  obtain ⟨hpl, hpe⟩ := List.getElem?_eq_some.mp hpd
  have hinj := List.nodup_iff_injective_get.mp hnd
  have hget : ns.get ⟨p, hpl⟩ = ns.get ⟨q, hql⟩ := by
    simp only [List.get_eq_getElem]
    rw [hpe, hqe]
  have : p = q := congrArg Fin.val (hinj hget)
  omega

theorem mem_of_firstIdx {d : String} {ns : List String} {j : Nat}
    (h : firstIdx d ns = some j) : d ∈ ns :=
  List.getElem?_mem (firstIdx_getElem h)

theorem perm_getElem_cons_eraseIdx {α : Type} {l : List α} {j : Nat} {x : α}
    (h : l[j]? = some x) : l.Perm (x :: l.eraseIdx j) := by
  obtain ⟨hj, hx⟩ := List.getElem?_eq_some.mp h
  rw [List.eraseIdx_eq_take_drop_succ]
  have h1 : l = l.take j ++ (x :: l.drop (j + 1)) := by
    conv_lhs => rw [← List.take_append_drop j l]
    rw [← hx, List.getElem_cons_drop]
  conv_lhs => rw [h1]
  exact List.perm_middle

theorem moveDep_perm {l : List Thing} {j index : Nat}
    (hj : j < l.length) (hij : index ≤ j) : (moveDep l j index).Perm l := by
  have hget : l.get? j = some l[j] := by
    rw [List.get?_eq_getElem?]
    exact List.getElem?_eq_getElem hj
  unfold moveDep
  rw [hget]
  have hlen : index ≤ (l.eraseIdx j).length := by
    rw [List.length_eraseIdx]
    simp only [if_pos hj]
    omega
  exact (List.perm_insertIdx _ _ hlen).trans
    (perm_getElem_cons_eraseIdx (List.getElem?_eq_getElem hj)).symm

theorem moveDep_length {l : List Thing} {j index : Nat}
    (hj : j < l.length) (hij : index ≤ j) : (moveDep l j index).length = l.length :=
  (moveDep_perm hj hij).length_eq

theorem eraseIdx_getElem_lt {α : Type} {l : List α} {j p : Nat}
    (hp : p < j) : (l.eraseIdx j)[p]? = l[p]? := by
  rw [List.eraseIdx_eq_take_drop_succ]
  by_cases hpl : p < l.length
  · have hptake : p < (l.take j).length := by
      simp only [List.length_take]
      omega
    rw [List.getElem?_append_left hptake]
    exact List.getElem?_take_of_lt hp
  · have h1 : l[p]? = none := by
      rw [List.getElem?_eq_none_iff]
      omega
    have h2 : (List.take j l ++ List.drop (j + 1) l)[p]? = none := by
      rw [List.getElem?_eq_none_iff]
      simp only [List.length_append, List.length_take, List.length_drop]
      omega
    rw [h1, h2]

theorem insertIdx_getElem_lt {α : Type} {m : List α} {x : α} {n p : Nat}
    (hp : p < n) (hn : n ≤ m.length) : (List.insertIdx n x m)[p]? = m[p]? := by
  have hpm : p < m.length := by omega
  have hpi : p < (List.insertIdx n x m).length := by
    rw [List.length_insertIdx n m hn]
    omega
  rw [List.getElem?_eq_getElem hpi, List.getElem?_eq_getElem hpm]
  exact congrArg some (List.getElem_insertIdx_of_lt m x n p hp hpm)

theorem moveDep_getElem_lt {l : List Thing} {j index p : Nat}
    (hj : j < l.length) (hij : index ≤ j) (hp : p < index) :
    (moveDep l j index)[p]? = l[p]? := by
  have hget : l.get? j = some l[j] := by
    rw [List.get?_eq_getElem?]
    exact List.getElem?_eq_getElem hj
  unfold moveDep
  rw [hget]
  have hlen : index ≤ (l.eraseIdx j).length := by
    rw [List.length_eraseIdx]
    simp only [if_pos hj]
    omega
  rw [insertIdx_getElem_lt hp hlen]
  exact eraseIdx_getElem_lt (by omega)

theorem moveDep_getElem_self {l : List Thing} {j index : Nat} {x : Thing}
    (hj : j < l.length) (hij : index ≤ j) (hx : l[j]? = some x) :
    (moveDep l j index)[index]? = some x := by
  have hget : l.get? j = some x := by
    rw [List.get?_eq_getElem?]
    exact hx
  unfold moveDep
  rw [hget]
  have hlen : index ≤ (l.eraseIdx j).length := by
    rw [List.length_eraseIdx]
    simp only [if_pos hj]
    omega
  have hil : index < (List.insertIdx index x (l.eraseIdx j)).length := by
    rw [List.length_insertIdx index _ hlen]
    omega
  rw [List.getElem?_eq_getElem hil]
  exact congrArg some (List.getElem_insertIdx_self (l.eraseIdx j) x index hlen)

theorem scanDeps_eq_some {l l₂ : List Thing} {index : Nat} {ds : List String}
    (h : scanDeps l index ds = some l₂) :
    ∃ d j, d ∈ ds ∧ firstIdx d (namesOf l) = some j ∧ index < j ∧ l₂ = moveDep l j index := by
  induction ds with
  | nil => simp [scanDeps] at h
  | cons d rest ih =>
    simp only [scanDeps] at h
    split at h
    · obtain ⟨d₂, j, hmem, hj, hij, heq⟩ := ih h
      exact ⟨d₂, j, List.mem_cons_of_mem _ hmem, hj, hij, heq⟩
    · rename_i j hfi
      split at h
      · rename_i hij
        exact ⟨d, j, List.mem_cons_self _ _, hfi, hij, (Option.some.inj h).symm⟩
      · obtain ⟨d₂, j₂, hmem, hj₂, hij₂, heq⟩ := ih h
        exact ⟨d₂, j₂, List.mem_cons_of_mem _ hmem, hj₂, hij₂, heq⟩

theorem scanDeps_eq_none {l : List Thing} {index : Nat} {ds : List String}
    (h : scanDeps l index ds = none) :
    ∀ d ∈ ds, firstIdx d (namesOf l) = none ∨
      ∃ j, firstIdx d (namesOf l) = some j ∧ j ≤ index := by
  induction ds with
  | nil => simp
  | cons d rest ih =>
    simp only [scanDeps] at h
    intro d₂ hd₂
    split at h
    · rename_i hfi
      cases hd₂ with
      | head => exact Or.inl hfi
      | tail _ hmem => exact ih h d₂ hmem
    · rename_i j hfi
      split at h
      · exact absurd h (by simp)
      · rename_i hij
        cases hd₂ with
        | head => exact Or.inr ⟨j, hfi, by omega⟩
        | tail _ hmem => exact ih h d₂ hmem

/-! ### Inner and outer loop invariants -/

theorem innerLoop_ok {orig : List Thing} {index : Nat} {fuel : Nat} :
    ∀ {l l₂ : List Thing} {seen : List String},
    innerLoop orig index l seen fuel = .ok l₂ →
    l₂.Perm l ∧ (∀ p, p < index → l₂[p]? = l[p]?) ∧
      ∀ d ∈ thingmapDeps orig ((namesOf l₂).getD index ""),
        ∀ j, firstIdx d (namesOf l₂) = some j → j ≤ index := by
  induction fuel with
  | zero =>
    intro l l₂ seen h
    simp [innerLoop] at h
  | succ fuel ih =>
    intro l l₂ seen h
    simp only [innerLoop] at h
    by_cases hnm : ((namesOf l).getD index "") ∈ seen
    · rw [if_pos hnm] at h
      exact absurd h (by simp)
    · rw [if_neg hnm] at h
      cases hscan : scanDeps l index (thingmapDeps orig ((namesOf l).getD index "")) with
      | none =>
        rw [hscan] at h
        cases h
        refine ⟨List.Perm.refl _, fun p _ => rfl, ?_⟩
        intro d hd j hj
        have := scanDeps_eq_none hscan d hd
        cases this with
        | inl hnone => rw [hnone] at hj; exact absurd hj (by simp)
        | inr hsome =>
          obtain ⟨j₂, hj₂, hle⟩ := hsome
          rw [hj₂] at hj
          cases hj
          exact hle
      | some lmid =>
        rw [hscan] at h
        obtain ⟨hperm, hpre, hpost⟩ := ih h
        obtain ⟨d, j, _, hfi, hij, heq⟩ := scanDeps_eq_some hscan
        have hjlen : j < l.length := by
          have := firstIdx_lt_length hfi
          simpa [namesOf] using this
        subst heq
        refine ⟨hperm.trans (moveDep_perm hjlen (by omega)), ?_, hpost⟩
        intro p hp
        rw [hpre p hp]
        exact moveDep_getElem_lt hjlen (by omega) hp

theorem innerLoop_error_kind {orig : List Thing} {index : Nat} {fuel : Nat} :
    ∀ {l : List Thing} {seen : List String} {e : PyErr},
    innerLoop orig index l seen fuel = .error e →
    e = .runtimeError ∨ e = .fuelOut := by
  induction fuel with
  | zero =>
    intro l seen e h
    simp only [innerLoop] at h
    cases h
    exact Or.inr rfl
  | succ fuel ih =>
    intro l seen e h
    simp only [innerLoop] at h
    by_cases hnm : ((namesOf l).getD index "") ∈ seen
    · rw [if_pos hnm] at h
      cases h
      exact Or.inl rfl
    · rw [if_neg hnm] at h
      cases hscan : scanDeps l index (thingmapDeps orig ((namesOf l).getD index "")) with
      | none => rw [hscan] at h; exact absurd h (by simp)
      | some lmid => rw [hscan] at h; exact ih h

theorem getD_namesOf_getElem? {l : List Thing} {index : Nat} (h : index < l.length) :
    (namesOf l)[index]? = some ((namesOf l).getD index "") := by
  have hlen : index < (namesOf l).length := by simpa [namesOf] using h
  rw [List.getD_eq_getElem?_getD]
  rw [List.getElem?_eq_getElem hlen]
  rfl

theorem innerLoop_no_fuelOut {orig : List Thing} {index : Nat} {fuel : Nat} :
    ∀ {l : List Thing} {seen : List String},
    seen.Nodup → (∀ s ∈ seen, s ∈ namesOf l) → index < l.length →
    l.length + 1 ≤ fuel + seen.length →
    innerLoop orig index l seen fuel ≠ .error .fuelOut := by
  induction fuel with
  | zero =>
    intro l seen hnd hsub hlt hbound
    exfalso
    have hsp : seen.Subperm (namesOf l) := List.subperm_of_subset hnd hsub
    have := hsp.length_le
    have : (namesOf l).length = l.length := by simp [namesOf]
    omega
  | succ fuel ih =>
    intro l seen hnd hsub hlt hbound h
    simp only [innerLoop] at h
    by_cases hnm : ((namesOf l).getD index "") ∈ seen
    · rw [if_pos hnm] at h
      exact absurd h (by simp)
    · rw [if_neg hnm] at h
      cases hscan : scanDeps l index (thingmapDeps orig ((namesOf l).getD index "")) with
      | none => rw [hscan] at h; exact absurd h (by simp)
      | some lmid =>
        rw [hscan] at h
        obtain ⟨d, j, _, hfi, hij, heq⟩ := scanDeps_eq_some hscan
        have hjlen : j < l.length := by
          have := firstIdx_lt_length hfi
          simpa [namesOf] using this
        subst heq
        have hmperm : (moveDep l j index).Perm l := moveDep_perm hjlen (by omega)
        have hnperm : (namesOf (moveDep l j index)).Perm (namesOf l) := hmperm.map Thing.name
        refine ih ?_ ?_ ?_ ?_ h
        · exact List.Nodup.cons hnm hnd
        · intro s hs
          cases hs with
          | head =>
            apply hnperm.mem_iff.mpr
            exact List.getElem?_mem (getD_namesOf_getElem? hlt)
          | tail _ hs => exact hnperm.mem_iff.mpr (hsub s hs)
        · rw [hmperm.length_eq]; exact hlt
        · rw [hmperm.length_eq]
          simp only [List.length_cons]
          omega

/-- Prefix positions that already hold a settled item cannot lose their
`firstIdx` when only later positions change. -/
theorem firstIdx_congr_prefix {ns ns₂ : List String} {d : String} {q index : Nat}
    (hq : q < index) (hagree : ∀ p, p < index → ns₂[p]? = ns[p]?)
    (h : firstIdx d ns = some q) : firstIdx d ns₂ = some q := by
  obtain ⟨h1, h2⟩ := firstIdx_eq_some_iff.mp h
  apply firstIdx_eq_some_iff.mpr
  constructor
  · rw [hagree q hq]; exact h1
  · intro p hp
    rw [hagree p (by omega)]
    exact h2 p hp

/-- The outer loop invariant: every position `p < bound` holds an item whose
present dependencies (looked up through the solver's `thingmap`) sit at
positions `≤ p`. -/
def settled (orig l : List Thing) (bound : Nat) : Prop :=
  ∀ p, p < bound → ∀ d ∈ thingmapDeps orig ((namesOf l).getD p ""),
    ∀ j, firstIdx d (namesOf l) = some j → j ≤ p

theorem outerLoop_ok {orig : List Thing} {k : Nat} :
    ∀ {l out : List Thing} {index : Nat},
    outerLoop orig l index k = .ok out → out.Perm l := by
  induction k with
  | zero =>
    intro l out index h
    simp only [outerLoop] at h
    cases h
    exact List.Perm.refl _
  | succ k ih =>
    intro l out index h
    simp only [outerLoop] at h
    cases hinner : innerLoop orig index l [] (l.length + 1) with
    | error e => rw [hinner] at h; exact absurd h (by simp)
    | ok lmid =>
      rw [hinner] at h
      exact (ih h).trans (innerLoop_ok hinner).1

theorem outerLoop_error_kind {orig : List Thing} {k : Nat} :
    ∀ {l : List Thing} {index : Nat} {e : PyErr},
    outerLoop orig l index k = .error e → e = .runtimeError ∨ e = .fuelOut := by
  induction k with
  | zero =>
    intro l index e h
    simp [outerLoop] at h
  | succ k ih =>
    intro l index e h
    simp only [outerLoop] at h
    cases hinner : innerLoop orig index l [] (l.length + 1) with
    | error e₂ =>
      rw [hinner] at h
      cases h
      exact innerLoop_error_kind hinner
    | ok lmid =>
      rw [hinner] at h
      exact ih h

theorem outerLoop_no_fuelOut {orig : List Thing} {k : Nat} :
    ∀ {l : List Thing} {index : Nat}, index + k = l.length →
    outerLoop orig l index k ≠ .error .fuelOut := by
  induction k with
  | zero =>
    intro l index _ h
    simp [outerLoop] at h
  | succ k ih =>
    intro l index hik h
    simp only [outerLoop] at h
    cases hinner : innerLoop orig index l [] (l.length + 1) with
    | error e₂ =>
      rw [hinner] at h
      cases h
      exact innerLoop_no_fuelOut List.nodup_nil (by simp) (by omega) (by omega) hinner
    | ok lmid =>
      rw [hinner] at h
      have hlen : lmid.length = l.length := (innerLoop_ok hinner).1.length_eq
      exact ih (by omega) h

theorem outerLoop_settled {orig : List Thing} {k : Nat} :
    ∀ {l out : List Thing} {index : Nat},
    outerLoop orig l index k = .ok out → settled orig l index → index + k = l.length →
    settled orig out l.length := by
  induction k with
  | zero =>
    intro l out index h hs hik
    simp only [outerLoop] at h
    cases h
    have hidx : index = l.length := by omega
    rw [← hidx]
    exact hs
  | succ k ih =>
    intro l out index h hs hik
    simp only [outerLoop] at h
    cases hinner : innerLoop orig index l [] (l.length + 1) with
    | error e => rw [hinner] at h; exact absurd h (by simp)
    | ok lmid =>
      rw [hinner] at h
      obtain ⟨hperm, hpre, hpost⟩ := innerLoop_ok hinner
      have hlen : lmid.length = l.length := hperm.length_eq
      have hnames : ∀ p, p < index → (namesOf lmid)[p]? = (namesOf l)[p]? := by
        intro p hp
        simp only [namesOf, List.getElem?_map]
        rw [hpre p hp]
      have hsmid : settled orig lmid (index + 1) := by
        intro p hp d hd j hj
        by_cases hpi : p < index
        · have hgd : (namesOf lmid).getD p "" = (namesOf l).getD p "" := by
            have h1 := @getD_namesOf_getElem? lmid p (by omega)
            have h2 := @getD_namesOf_getElem? l p (by omega)
            rw [hnames p hpi] at h1
            rw [h2] at h1
            exact (Option.some.inj h1).symm
          rw [hgd] at hd
          obtain ⟨j₂, hj₂⟩ : ∃ j₂, firstIdx d (namesOf l) = some j₂ := by
            have hdm : d ∈ namesOf l := by
              apply (hperm.map Thing.name).mem_iff.mp
              exact mem_of_firstIdx hj
            have := firstIdx_isSome_of_mem hdm
            cases hfi : firstIdx d (namesOf l) with
            | none => rw [hfi] at this; simp at this
            | some j₃ => exact ⟨j₃, rfl⟩
          have hle := hs p hpi d hd j₂ hj₂
          have : firstIdx d (namesOf lmid) = some j₂ :=
            firstIdx_congr_prefix (by omega) hnames hj₂
          rw [this] at hj
          cases hj
          exact hle
        · have : p = index := by omega
          subst this
          exact hpost d hd j hj
      have hres := ih h hsmid (by omega)
      rw [hlen] at hres
      exact hres

/-- What the C2 claim asserts about the result order: every dependency of an
item that names another present item appears strictly earlier.  (The `d ≠
name` guard is the correction for self-dependencies, which the algorithm
skips.) -/
def topoOrdered (things out : List Thing) : Prop :=
  ∀ p, (hp : p < out.length) → ∀ d ∈ out[p].deps,
    d ∈ namesOf things → d ≠ out[p].name →
    ∃ q, q < p ∧ ∃ (hq : q < out.length), out[q].name = d

theorem thingmapDeps_of_nodup {things : List Thing} {X : Thing}
    (hnd : (namesOf things).Nodup) (hX : X ∈ things) :
    thingmapDeps things X.name = X.deps := by
  unfold thingmapDeps
  cases hfind : things.reverse.find? (fun t => t.name = X.name) with
  | none =>
    exfalso
    have : ∃ t ∈ things.reverse, (fun t : Thing => decide (t.name = X.name)) t = true := by
      refine ⟨X, List.mem_reverse.mpr hX, by simp⟩
    have := List.find?_isSome.mpr this
    rw [hfind] at this
    simp at this
  | some t =>
    have ht1 : t.name = X.name := by
      have := List.find?_some hfind
      simpa using this
    have ht2 : t ∈ things := List.mem_reverse.mp (List.mem_of_find?_eq_some hfind)
    have : t = X := List.inj_on_of_nodup_map (by simpa [namesOf] using hnd) ht2 hX ht1
    rw [this]

theorem solve_dependencies_ok_topo {things out : List Thing}
    (hnd : (namesOf things).Nodup)
    (h : solve_dependencies things = .ok out) :
    out.Perm things ∧ topoOrdered things out := by
  have hperm : out.Perm things := outerLoop_ok h
  have hset : settled things out things.length :=
    outerLoop_settled h (fun p hp => by omega) (by omega)
  refine ⟨hperm, ?_⟩
  intro p hp d hd hdmem hdne
  have hX : out[p] ∈ things := hperm.mem_iff.mp (List.getElem_mem hp)
  have hplen : p < things.length := by rw [← hperm.length_eq]; exact hp
  have hndout : (namesOf out).Nodup := (hperm.map Thing.name).symm.nodup hnd
  have hnameAt : (namesOf out)[p]? = some out[p].name := by
    simp only [namesOf, List.getElem?_map]
    rw [List.getElem?_eq_getElem hp]
    rfl
  have hgd : (namesOf out).getD p "" = out[p].name := by
    have := @getD_namesOf_getElem? out p hp
    rw [hnameAt] at this
    exact (Option.some.inj this).symm
  have hdm : d ∈ thingmapDeps things ((namesOf out).getD p "") := by
    rw [hgd, thingmapDeps_of_nodup hnd hX]
    exact hd
  have hdout : d ∈ namesOf out := (hperm.map Thing.name).mem_iff.mpr hdmem
  obtain ⟨j, hj⟩ : ∃ j, firstIdx d (namesOf out) = some j := by
    have := firstIdx_isSome_of_mem hdout
    cases hfi : firstIdx d (namesOf out) with
    | none => rw [hfi] at this; simp at this
    | some j => exact ⟨j, rfl⟩
  have hle : j ≤ p := hset p (by omega) d hdm j hj
  have hjp : j ≠ p := by
    intro hc
    subst hc
    have := firstIdx_getElem hj
    rw [hnameAt] at this
    exact hdne (Option.some.inj this).symm
  have hjlt : j < p := by omega
  have hjget := firstIdx_getElem hj
  have hjlen : j < out.length := by
    have := firstIdx_lt_length hj
    simpa [namesOf] using this
  refine ⟨j, hjlt, hjlen, ?_⟩
  have : (namesOf out)[j]? = some out[j].name := by
    simp only [namesOf, List.getElem?_map]
    rw [List.getElem?_eq_getElem hjlen]
    rfl
  rw [this] at hjget
  exact Option.some.inj hjget

theorem solve_dependencies_error_kind {things : List Thing} {e : PyErr}
    (h : solve_dependencies things = .error e) : e = .runtimeError := by
  have := outerLoop_error_kind h
  cases this with
  | inl h₂ => exact h₂
  | inr h₂ =>
    subst h₂
    exact absurd h (outerLoop_no_fuelOut (by omega))

/-! ### Cycles in the restricted dependency graph -/

/-- The dependency graph the C2 claim speaks about, restricted to names
present in the input: `a` depends on `b` when some item named `a` lists `b`
among its `deps` and `b` names a present item. -/
def depEdge (things : List Thing) (a b : String) : Prop :=
  (∃ X ∈ things, X.name = a ∧ b ∈ X.deps) ∧ b ∈ namesOf things

instance (things : List Thing) (a b : String) : Decidable (depEdge things a b) := by
  unfold depEdge
  infer_instance

/-- The closing edge of a cycle list: its last element depends on its head. -/
def cycleWrap (things : List Thing) (c : List String) : Prop :=
  ∀ x ∈ c.getLast?, ∀ y ∈ c.head?, depEdge things x y

/-- A cycle (of any length, including a self-dependency) in the restricted
dependency graph, as the C2 claim states it. -/
def hasCycle (things : List Thing) : Prop :=
  ∃ c : List String, c ≠ [] ∧ c.Nodup ∧
    List.Chain' (depEdge things) c ∧ cycleWrap things c

/-- A cycle through at least two distinct names. -/
def hasCycle2 (things : List Thing) : Prop :=
  ∃ c : List String, 2 ≤ c.length ∧ c.Nodup ∧
    List.Chain' (depEdge things) c ∧ cycleWrap things c

theorem thingmapDeps_mem {orig : List Thing} {nm d : String}
    (h : d ∈ thingmapDeps orig nm) : ∃ X ∈ orig, X.name = nm ∧ d ∈ X.deps := by
  unfold thingmapDeps at h
  cases hfind : orig.reverse.find? (fun t => t.name = nm) with
  | none => rw [hfind] at h; simp at h
  | some t =>
    rw [hfind] at h
    refine ⟨t, List.mem_reverse.mp (List.mem_of_find?_eq_some hfind), ?_, h⟩
    have := List.find?_some hfind
    simpa using this

theorem nodup_getElem?_ne {ns : List String} (hnd : ns.Nodup) {p q : Nat}
    (hpq : p ≠ q) {a b : String} (hp : ns[p]? = some a) (hq : ns[q]? = some b) :
    a ≠ b := by
  intro hab
  subst hab
  obtain ⟨hpl, hpe⟩ := List.getElem?_eq_some.mp hp
  obtain ⟨hql, hqe⟩ := List.getElem?_eq_some.mp hq
  have hinj := List.nodup_iff_injective_get.mp hnd
  have hget : ns.get ⟨p, hpl⟩ = ns.get ⟨q, hql⟩ := by
    simp only [List.get_eq_getElem]
    rw [hpe, hqe]
  exact hpq (congrArg Fin.val (hinj hget))

theorem innerLoop_runtime_cycle {orig : List Thing} {index : Nat} {fuel : Nat} :
    ∀ {l : List Thing} {seen : List String},
    (namesOf l).Nodup → (namesOf l).Perm (namesOf orig) → index < l.length →
    seen.Nodup →
    List.Chain' (fun a b => depEdge orig b a ∧ b ≠ a)
      (((namesOf l).getD index "") :: seen) →
    innerLoop orig index l seen fuel = .error .runtimeError →
    hasCycle2 orig := by
  induction fuel with
  | zero =>
    intro l seen _ _ _ _ _ h
    simp only [innerLoop] at h
    cases h
  | succ fuel ih =>
    intro l seen hnd hperm hlt hsnd hchain h
    simp only [innerLoop] at h
    set nm := (namesOf l).getD index "" with hnm
    by_cases hmem : nm ∈ seen
    · -- the raise: extract a cycle from the seen chain
      clear h
      obtain ⟨a, b, hsab⟩ := List.append_of_mem hmem
      subst hsab
      have hchain₂ : List.Chain' (fun a b => depEdge orig b a ∧ b ≠ a)
          ((nm :: a) ++ (nm :: b)) := by
        rw [List.cons_append]
        exact hchain
      obtain ⟨ch1, _, hjun⟩ := List.chain'_append.mp hchain₂
      obtain ⟨ha, _, hdisj⟩ := List.nodup_append.mp hsnd
      have hnma : nm ∉ a := by
        intro hin
        exact hdisj hin (List.mem_cons_self _ _)
      cases a with
      | nil =>
        exfalso
        have := hjun nm (by simp) nm (by simp)
        exact this.2 rfl
      | cons a0 arest =>
        refine ⟨(nm :: a0 :: arest).reverse, ?_, ?_, ?_, ?_⟩
        · simp
        · rw [List.nodup_reverse]
          exact List.Nodup.cons hnma ha
        · apply (List.chain'_reverse (R := depEdge orig) (l := nm :: a0 :: arest)).mpr
          apply List.Chain'.imp ?_ ch1
          intro x y hxy
          exact hxy.1
        · intro x hx y hy
          rw [List.getLast?_reverse] at hx
          rw [List.head?_reverse] at hy
          simp only [List.head?_cons, Option.mem_def, Option.some.injEq] at hx
          subst hx
          have hyl : (nm :: a0 :: arest).getLast? = some ((nm :: a0 :: arest).getLast (by simp)) :=
            List.getLast?_eq_getLast _ _
          rw [hyl] at hy
          simp only [Option.mem_def, Option.some.injEq] at hy
          subst hy
          have := hjun ((nm :: a0 :: arest).getLast (by simp))
            (by rw [hyl]; rfl) nm (by simp)
          exact this.1
    · rw [if_neg hmem] at h
      cases hscan : scanDeps l index (thingmapDeps orig nm) with
      | none => rw [hscan] at h; exact absurd h (by simp)
      | some lmid =>
        rw [hscan] at h
        obtain ⟨d, j, hdmem, hfi, hij, heq⟩ := scanDeps_eq_some hscan
        have hjlen : j < l.length := by
          have := firstIdx_lt_length hfi
          simpa [namesOf] using this
        have hjget : (namesOf l)[j]? = some d := firstIdx_getElem hfi
        have hnmget : (namesOf l)[index]? = some nm := getD_namesOf_getElem? hlt
        have hnmd : nm ≠ d := nodup_getElem?_ne hnd (by omega) hnmget hjget
        have hedge : depEdge orig nm d := by
          constructor
          · exact thingmapDeps_mem hdmem
          · exact hperm.mem_iff.mp (List.getElem?_mem hjget)
        obtain ⟨X, hXl, hXname⟩ : ∃ X, l[j]? = some X ∧ X.name = d := by
          have : (l.map Thing.name)[j]? = some d := hjget
          rw [List.getElem?_map] at this
          obtain ⟨X, hX1, hX2⟩ := Option.map_eq_some'.mp this
          exact ⟨X, hX1, hX2⟩
        have hmperm : lmid.Perm l := by
          rw [heq]
          exact moveDep_perm hjlen (by omega)
        have hnperm : (namesOf lmid).Perm (namesOf l) := hmperm.map Thing.name
        have hmidget : (namesOf lmid)[index]? = some d := by
          rw [heq]
          have hms := @moveDep_getElem_self l j index X hjlen (by omega) hXl
          simp only [namesOf, List.getElem?_map, hms, Option.map_some']
          rw [hXname]
        have hmidgd : (namesOf lmid).getD index "" = d := by
          have h1 := @getD_namesOf_getElem? lmid index
            (by rw [hmperm.length_eq]; exact hlt)
          rw [hmidget] at h1
          exact (Option.some.inj h1).symm
        have hchain₂ : List.Chain' (fun a b => depEdge orig b a ∧ b ≠ a)
            (((namesOf lmid).getD index "") :: nm :: seen) := by
          rw [hmidgd]
          apply List.chain'_cons.mpr
          exact ⟨⟨hedge, hnmd⟩, hchain⟩
        exact ih (hnperm.symm.nodup hnd) (hnperm.trans hperm)
          (by rw [hmperm.length_eq]; exact hlt)
          (List.Nodup.cons hmem hsnd) hchain₂ h

theorem outerLoop_runtime_cycle {orig : List Thing} {k : Nat} :
    ∀ {l : List Thing} {index : Nat},
    (namesOf l).Nodup → (namesOf l).Perm (namesOf orig) → index + k = l.length →
    outerLoop orig l index k = .error .runtimeError → hasCycle2 orig := by
  induction k with
  | zero =>
    intro l index _ _ _ h
    simp [outerLoop] at h
  | succ k ih =>
    intro l index hnd hperm hik h
    simp only [outerLoop] at h
    cases hinner : innerLoop orig index l [] (l.length + 1) with
    | error e =>
      rw [hinner] at h
      cases h
      exact innerLoop_runtime_cycle hnd hperm (by omega) List.nodup_nil
        (List.chain'_singleton _) hinner
    | ok lmid =>
      rw [hinner] at h
      have hmperm : lmid.Perm l := (innerLoop_ok hinner).1
      have hnperm : (namesOf lmid).Perm (namesOf l) := hmperm.map Thing.name
      refine ih (hnperm.symm.nodup hnd) (hnperm.trans hperm) ?_ h
      rw [hmperm.length_eq]
      omega

theorem solve_runtime_cycle {things : List Thing}
    (hnd : (namesOf things).Nodup)
    (h : solve_dependencies things = .error .runtimeError) : hasCycle2 things :=
  outerLoop_runtime_cycle hnd (List.Perm.refl _) (by omega) h

theorem topo_edge_pos {things out : List Thing}
    (hnd : (namesOf things).Nodup) (hperm : out.Perm things)
    (htopo : topoOrdered things out) {a b : String} {pa pb : Nat}
    (he : depEdge things a b) (hne : b ≠ a)
    (ha : firstIdx a (namesOf out) = some pa)
    (hb : firstIdx b (namesOf out) = some pb) : pb < pa := by
  obtain ⟨⟨X, hX, hXa, hXb⟩, hbmem⟩ := he
  have hXout : X ∈ out := hperm.mem_iff.mpr hX
  obtain ⟨⟨p, hp⟩, hXp⟩ := List.get_of_mem hXout
  simp only [List.get_eq_getElem] at hXp
  have hndout : (namesOf out).Nodup := (hperm.map Thing.name).symm.nodup hnd
  obtain ⟨q, hqp, hq, hqname⟩ := htopo p hp b (by rw [hXp]; exact hXb) hbmem
    (by rw [hXp, hXa]; exact hne)
  have hpname : (namesOf out)[p]? = some a := by
    simp only [namesOf, List.getElem?_map, List.getElem?_eq_getElem hp,
      Option.map_some', hXp, hXa]
  have hqname₂ : (namesOf out)[q]? = some b := by
    simp only [namesOf, List.getElem?_map, List.getElem?_eq_getElem hq,
      Option.map_some', hqname]
  have hpa : pa = p := by
    have hu := firstIdx_of_nodup hndout hpname
    rw [ha] at hu
    exact Option.some.inj hu
  have hpb : pb = q := by
    have hu := firstIdx_of_nodup hndout hqname₂
    rw [hb] at hu
    exact Option.some.inj hu
  omega

theorem firstIdx_exists_of_out {things out : List Thing} (hperm : out.Perm things)
    {x : String} (hx : x ∈ namesOf things) :
    ∃ p, firstIdx x (namesOf out) = some p := by
  have : x ∈ namesOf out := ((hperm.map Thing.name).mem_iff).mpr hx
  have := firstIdx_isSome_of_mem this
  cases hfi : firstIdx x (namesOf out) with
  | none => rw [hfi] at this; simp at this
  | some p => exact ⟨p, rfl⟩

theorem edge_src_mem {things : List Thing} {a b : String}
    (he : depEdge things a b) : a ∈ namesOf things := by
  obtain ⟨⟨X, hX, hXa, _⟩, _⟩ := he
  rw [← hXa]
  exact List.mem_map_of_mem Thing.name hX

theorem chain_last_lt_head {things out : List Thing}
    (hnd : (namesOf things).Nodup) (hperm : out.Perm things)
    (htopo : topoOrdered things out) :
    ∀ (c : List String) (x lastv : String),
    List.Chain' (depEdge things) (x :: c) → (x :: c).Nodup → c ≠ [] →
    (x :: c).getLast? = some lastv →
    ∀ px pl, firstIdx x (namesOf out) = some px →
    firstIdx lastv (namesOf out) = some pl → pl < px := by
  intro c
  induction c with
  | nil =>
    intro x lastv _ _ hne
    exact absurd rfl hne
  | cons y t ih =>
    intro x lastv hch hcnd _ hlast px pl hpx hpl
    obtain ⟨hedge, hch₂⟩ := List.chain'_cons.mp hch
    have hxy : y ≠ x := by
      intro hc
      subst hc
      exact (List.nodup_cons.mp hcnd).1 (List.mem_cons_self _ _)
    obtain ⟨py, hpy⟩ := firstIdx_exists_of_out hperm hedge.2
    have h1 : py < px := topo_edge_pos hnd hperm htopo hedge hxy hpx hpy
    cases t with
    | nil =>
      have hy : lastv = y := by
        simp only [List.getLast?_singleton, List.getLast?_cons_cons,
          Option.some.injEq] at hlast
        exact hlast.symm
      subst hy
      rw [hpy] at hpl
      cases hpl
      omega
    | cons z t2 =>
      have hlast₂ : (y :: z :: t2).getLast? = some lastv := by
        rw [← hlast]
        rfl
      have h2 : pl < py :=
        ih y lastv hch₂ (List.nodup_cons.mp hcnd).2 (by simp) hlast₂ py pl hpy hpl
      omega

theorem solve_ok_no_cycle2 {things out : List Thing}
    (hnd : (namesOf things).Nodup)
    (h : solve_dependencies things = .ok out) : ¬ hasCycle2 things := by
  intro ⟨c, hclen, hcnd, hchain, hwrap⟩
  obtain ⟨hperm, htopo⟩ := solve_dependencies_ok_topo hnd h
  cases c with
  | nil => simp at hclen
  | cons x rest =>
    cases rest with
    | nil => simp at hclen
    | cons y t =>
      have hne : (y :: t) ≠ [] := by simp
      have hlast? : (x :: y :: t).getLast? = some ((y :: t).getLast hne) := by
        rw [List.getLast?_cons_cons]
        exact List.getLast?_eq_getLast _ hne
      have hlmem : (y :: t).getLast hne ∈ y :: t := List.getLast_mem hne
      have hlx : (y :: t).getLast hne ≠ x := by
        intro hc
        have hxnot : x ∉ y :: t := (List.nodup_cons.mp hcnd).1
        rw [← hc] at hxnot
        exact hxnot hlmem
      have hwrapedge : depEdge things ((y :: t).getLast hne) x :=
        hwrap _ (by rw [hlast?]; rfl) x rfl
      have hexy : depEdge things x y := (List.chain'_cons.mp hchain).1
      obtain ⟨px, hpx⟩ := firstIdx_exists_of_out hperm (edge_src_mem hexy)
      obtain ⟨pl, hpl⟩ := firstIdx_exists_of_out hperm (edge_src_mem hwrapedge)
      have h1 : pl < px :=
        chain_last_lt_head hnd hperm htopo (y :: t) x ((y :: t).getLast hne)
          hchain hcnd (by simp) hlast? px pl hpx hpl
      have h2 : px < pl :=
        topo_edge_pos hnd hperm htopo hwrapedge (Ne.symm hlx) hpl hpx
      omega

/-! ### Claim C2 -/

/-- A two-item circular input used as witness data. -/
def cyclicDemo : List Thing := [⟨"a.js", ["b.js"]⟩, ⟨"b.js", ["a.js"]⟩]

/-- A single item depending on itself: its restricted dependency graph has a
(length-one) cycle, yet the solver does not raise. -/
def selfDepDemo : List Thing := [⟨"a.js", ["a.js"]⟩]

/-- C2, counterexample: the claim says that whenever the dependency graph
restricted to present names contains a cycle the solver raises the
circular-dependency error.  The one-item list whose item depends on itself is
such a graph (a self-loop is a cycle), but `solve_dependencies` returns it
unchanged instead of raising: the algorithm only moves a dependency found at
a *later* position, so a self-dependency is silently skipped. -/
theorem solve_dependencies_selfdep_counterexample :
    hasCycle selfDepDemo ∧
      solve_dependencies selfDepDemo = .ok [⟨"a.js", ["a.js"]⟩] := by
  constructor
  · refine ⟨["a.js"], by decide, by decide, List.chain'_singleton _, ?_⟩
    intro x hx y hy
    simp only [List.getLast?_singleton, Option.mem_def, Option.some.injEq] at hx
    simp only [List.head?_cons, Option.mem_def, Option.some.injEq] at hy
    subst hx
    subst hy
    decide
  · rfl

/-- C2 (amended): for uniquely-named items, if the restricted dependency
graph has no cycle through two or more distinct names then
`solve_dependencies` returns a permutation of the input in which, for every
item `X` and every dependency `d` of `X` that names another present item and
is not `X`'s own name, the item named `d` appears strictly before `X`; if the
graph does contain such a cycle, the solver raises the circular-dependency
`RuntimeError`.  (Amendment: self-dependency cycles are skipped, neither
raising nor constraining the order.) -/
theorem solve_dependencies_correct (things : List Thing)
    (hnd : (namesOf things).Nodup) :
    (¬ hasCycle2 things → ∃ out, solve_dependencies things = .ok out ∧
        out.Perm things ∧ topoOrdered things out) ∧
    (hasCycle2 things → solve_dependencies things = .error .runtimeError) := by
  constructor
  · intro hnc
    cases hres : solve_dependencies things with
    | error e =>
      exfalso
      have he := solve_dependencies_error_kind hres
      subst he
      exact hnc (solve_runtime_cycle hnd hres)
    | ok out => exact ⟨out, rfl, solve_dependencies_ok_topo hnd hres⟩
  · intro hc
    cases hres : solve_dependencies things with
    | error e => rw [solve_dependencies_error_kind hres]
    | ok out => exact absurd hc (solve_ok_no_cycle2 hnd hres)

/-- C2, witness: the amended theorem applied to a concrete two-item cycle. -/
theorem solve_dependencies_correct_witness :
    (namesOf cyclicDemo).Nodup ∧
      solve_dependencies cyclicDemo = .error .runtimeError := by
  refine ⟨by decide, ?_⟩
  apply (solve_dependencies_correct cyclicDemo (by decide)).2
  refine ⟨["a.js", "b.js"], by decide, by decide, ?_, ?_⟩
  · apply List.chain'_cons.mpr
    refine ⟨by decide, List.chain'_singleton _⟩
  · intro x hx y hy
    simp only [List.getLast?_cons_cons, List.getLast?_singleton, Option.mem_def,
      Option.some.injEq] at hx
    simp only [List.head?_cons, Option.mem_def, Option.some.injEq] at hy
    subst hx
    subst hy
    decide

/-! ### `asset.py`: the `Asset` and `Bundle` classes

The `flexxasset` namespace models `flexx/app/asset.py`.  `Asset.__init__` is
modelled as `Asset.make`, returning the constructed object or the raised
exception.  `Bundle.to_string` concatenates module code obtained from the
external `JSModule.get_js()` / `get_css()` code generator, which is passed in
as a function parameter.
-/

namespace flexxasset

/-- An `asset.py` `Asset`: name, optional remote URI, optional source. -/
structure Asset where
  _name : String
  _remote : Option String
  _source : Option String
deriving DecidableEq, Repr

/-- `Asset.__init__(name, source=None)` from `asset.py` (lines 59-86):
validates the name and its suffix, detects remote (URI) names, and finally
requires a non-`None` source. -/
def Asset.make (name? source : Option String) : Except PyErr Asset :=
  match name? with
  | none => .error .typeError
  | some name =>
    if suffixOk name = false then .error .valueError
    else if isUri name ∧ source.isSome then .error .typeError
    else if source.isNone then .error .typeError
    else
      .ok { _name := if isUri name then uriBasename name else name,
            _remote := if isUri name then some name else none,
            _source := source }

/-- A `Bundle`: an asset whose body is a collection of modules.  The Python
`set` in `_deps` is modelled as a duplicate-free list (membership is the only
observable; `setAdd` below adds an element only when absent).  The cached
`_need_sort` flag only avoids re-sorting an unchanged list and is dropped
(the `modules` property below always recomputes the same value). -/
structure Bundle where
  _name : String
  _module_name : String
  _modules : List Thing
  _deps : List String
deriving DecidableEq, Repr

/-- `Bundle.__init__(name)`: `Asset.__init__(name, '')` for validation plus
`self._module_name = name.rsplit('.', 1)[0].split('-')[0]`. -/
def Bundle.make (name : String) : Except PyErr Bundle := do
  let a ← Asset.make (some name) (some "")
  pure { _name := a._name,
         _module_name := splitDashHead (rsplitDotHead name),
         _modules := [], _deps := [] }

/-- Python `set.add`: insert only when absent. -/
def setAdd (l : List String) (s : String) : List String :=
  if s ∈ l then l else l ++ [s]

/-- The dependency-expansion `while` loop of `Bundle.add_module`:
`while '.' in dep: add(dep); dep = dep.rsplit('.', 1)[0]` followed by
`add(dep)`, working on the dependency's characters.  The `fuel` argument
makes the loop structurally recursive; since `lastDotSplit` strictly shrinks
the character list, fuel `cs.length` always suffices (and a run out of fuel
can only happen at `cs = []`, where it coincides with the dot-free case). -/
def addExpandedDepFuel : Nat → List String → List Char → List String
  | 0, deps, cs => setAdd deps (String.mk cs)
  | fuel + 1, deps, cs =>
    match lastDotSplit cs with
    | none => setAdd deps (String.mk cs)
    | some r => addExpandedDepFuel fuel (setAdd deps (String.mk cs)) r

/-- The dependency expansion, with the fuel it needs. -/
def addExpandedDep (deps : List String) (cs : List Char) : List String :=
  addExpandedDepFuel cs.length deps cs

/-- The elision test of `Bundle.add_module`: a dependency is kept unless it
starts with the bundle's module name, or the module name starts with the
dependency plus a separator. -/
def bundleDepKeep (module_name d : String) : Bool :=
  !(pyStartswith d module_name) && !(pyStartswith module_name (d ++ "."))

/-- `Bundle.add_module(m)` (lines 179-203): the plain-`startswith` namespace
check, the module append, the hierarchical dependency expansion, and the
elision pass over the resulting set. -/
def Bundle.add_module (b : Bundle) (m : Thing) : Except PyErr Bundle :=
  if pyStartswith m.name b._module_name = false then .error .valueError
  else
    let deps₂ := m.deps.foldl (fun acc dep => addExpandedDep acc dep.data) b._deps
    .ok { b with
      _modules := b._modules ++ [m],
      _deps := deps₂.filter (fun d => bundleDepKeep b._module_name d) }

/-- Repeated `add_module` calls in order (used to state insertion-order
claims); the first raised error propagates, as in Python. -/
def Bundle.addModules (b : Bundle) : List Thing → Except PyErr Bundle
  | [] => .ok b
  | m :: rest =>
    match b.add_module m with
    | .error e => .error e
    | .ok b₂ => b₂.addModules rest

/-- Lexicographic code-point comparison of character lists — how Python
compares the strings `list.sort(key=...)` sorts by. -/
def charListLe : List Char → List Char → Bool
  | [], _ => true
  | _ :: _, [] => false
  | a :: as, b :: bs => if a = b then charListLe as bs else decide (a.toNat < b.toNat)

/-- Stable insertion of a module into a name-sorted list: it goes in front
of the first strictly-later name, after any equal names already present. -/
def insertSorted (m : Thing) : List Thing → List Thing
  | [] => [m]
  | x :: xs =>
    if charListLe m.name.data x.name.data then m :: x :: xs
    else x :: insertSorted m xs

/-- `self._modules.sort(key=lambda m: m.name)` — Python's stable sort keyed
by the module name, modelled as a stable insertion sort (any two stable
sorts under the same key agree). -/
def sortByName : List Thing → List Thing
  | [] => []
  | m :: ms => insertSorted m (sortByName ms)

/-- The `Bundle.modules` property: sort by name, then
`solve_dependencies` (which may raise on a circular dependency). -/
def Bundle.modules (b : Bundle) : Except PyErr (List Thing) :=
  solve_dependencies (sortByName b._modules)

/-- The `Bundle.deps` property (the set's elements, as the dedup list). -/
def Bundle.deps (b : Bundle) : List String :=
  b._deps

/-- Python `s.center(width, fill)`.  For an even `width` (the source always
uses 70) CPython puts the extra fill character on the right, as here. -/
def pyCenter (s : String) (width : Nat) (fill : Char) : String :=
  if width ≤ s.length then s
  else
    let marg := width - s.length
    let left := marg / 2
    ⟨List.replicate left fill ++ s.data ++ List.replicate (marg - left) fill⟩

/-- `Bundle.to_string`: a table-of-contents comment followed by each sorted
module's banner and code.  `getJs`/`getCss` stand for the external
`JSModule.get_js()` / `get_css()` code generator. -/
def Bundle.to_string (getJs getCss : Thing → String) (b : Bundle) :
    Except PyErr String := do
  let isjs := isJsName b._name
  let ms ← b.modules
  let toc := ms.map (fun m => "- " ++ m.name)
  let body := ms.foldr (fun m acc =>
      ("/* " ++ pyCenter (" " ++ m.name ++ " ") 70 '=' ++ "*/") ::
        (if isjs then getJs m else getCss m) :: acc) []
  let parts := ("/* Bundle contents:\n" ++ String.intercalate "\n" toc ++ "\n*/\n") :: body
  pure (String.intercalate "\n\n" parts)

end flexxasset

instance {ε α : Type} [DecidableEq ε] [DecidableEq α] : DecidableEq (Except ε α) :=
  fun x y =>
    match x, y with
    | .ok a, .ok b =>
      if h : a = b then isTrue (by rw [h])
      else isFalse (fun hc => h (Except.ok.inj hc))
    | .error a, .error b =>
      if h : a = b then isTrue (by rw [h])
      else isFalse (fun hc => h (Except.error.inj hc))
    | .ok _, .error _ => isFalse (fun hc => Except.noConfusion hc)
    | .error _, .ok _ => isFalse (fun hc => Except.noConfusion hc)

/-! ### Claim C3 -/

/-- The C3 scenario: a bundle with namespace `a.b`, one member carrying deps
`a.b.c`, `a.b.d` and `external.x`, and members rooted at `a.b.c` and
`a.b.d`. -/
def bundleC3 : Except PyErr flexxasset.Bundle := do
  let b ← flexxasset.Bundle.make "a.b.js"
  let b ← b.add_module ⟨"a.b.x", ["a.b.c", "a.b.d", "external.x"]⟩
  let b ← b.add_module ⟨"a.b.c", []⟩
  b.add_module ⟨"a.b.d", []⟩

/-- The value `bundleC3` evaluates to. -/
def bundleC3val : flexxasset.Bundle :=
  ⟨"a.b.js", "a.b",
    [⟨"a.b.x", ["a.b.c", "a.b.d", "external.x"]⟩, ⟨"a.b.c", []⟩, ⟨"a.b.d", []⟩],
    ["external.x", "external"]⟩

/-- C3, counterexample: the claim says the bundle's unresolved-dependency set
is exactly `{"external.x"}`, but the set also holds the ancestor name
`external` (contributed by the hierarchical expansion of `external.x` and not
elided, since it is not covered by the bundle's namespace). -/
theorem bundle_unresolved_deps_counterexample :
    bundleC3 = .ok bundleC3val ∧ "external" ∈ bundleC3val.deps ∧
      "external" ∉ (["external.x"] : List String) := by
  refine ⟨by decide, by decide, by decide⟩

/-- C3 (amended): in the claim's scenario the unresolved-dependency set is
exactly `{"external.x", "external"}` — hierarchical expansion keeps every
ancestor of an external dependency name alongside the name itself, while
internal dependencies covered by the bundle namespace are elided. -/
theorem bundle_unresolved_deps_amended :
    bundleC3.map flexxasset.Bundle.deps = .ok ["external.x", "external"] := by
  decide

/-! ### Claim C4 -/

/-- C4, counterexample: the claim says a unit whose name merely shares a
textual prefix with the namespace (`foobar` against `foo`) is rejected; the
code's plain `startswith` check accepts it. -/
theorem bundle_add_module_textual_counterexample :
    flexxasset.Bundle.make "foo.js" = .ok ⟨"foo.js", "foo", [], []⟩ ∧
      flexxasset.Bundle.add_module ⟨"foo.js", "foo", [], []⟩ ⟨"foobar", []⟩ =
        .ok ⟨"foo.js", "foo", [⟨"foobar", []⟩], []⟩ := by
  constructor
  · decide
  · decide

/-- C4 (amended): `add_module` fails with the namespace-mismatch error
exactly when the unit's name does not start with the bundle's namespace as a
plain textual prefix; in particular a name that extends the namespace without
a separator (such as `foobar` for namespace `foo`) is accepted. -/
theorem bundle_add_module_namespace_check (b : flexxasset.Bundle) (m : Thing) :
    (b.add_module m = .error .valueError ↔
      pyStartswith m.name b._module_name = false) ∧
    (pyStartswith m.name b._module_name = true →
      ∃ b₂, b.add_module m = .ok b₂) := by
  unfold flexxasset.Bundle.add_module
  constructor
  · constructor
    · intro h
      by_cases hc : pyStartswith m.name b._module_name = false
      · exact hc
      · rw [if_neg hc] at h
        exact absurd h (by simp)
    · intro h
      rw [if_pos h]
  · intro h
    rw [if_neg (by rw [h]; simp)]
    exact ⟨_, rfl⟩

/-- The `foo.js` bundle used by the C4 witness. -/
def fooBundle : flexxasset.Bundle := ⟨"foo.js", "foo", [], []⟩

/-- C4, witness: the amended theorem at the bundle `foo.js` and unit
`foobar`. -/
theorem bundle_add_module_namespace_check_witness :
    ∃ b₂, fooBundle.add_module ⟨"foobar", []⟩ = .ok b₂ :=
  (bundle_add_module_namespace_check fooBundle ⟨"foobar", []⟩).2 (by decide)

/-! ### Claim C5 -/

theorem add_module_fields {b b₂ : flexxasset.Bundle} {m : Thing}
    (h : b.add_module m = .ok b₂) :
    b₂._modules = b._modules ++ [m] ∧ b₂._name = b._name ∧
      b₂._module_name = b._module_name := by
  unfold flexxasset.Bundle.add_module at h
  split at h
  · exact absurd h (by simp)
  · cases h
    exact ⟨rfl, rfl, rfl⟩

theorem addModules_fields {ms : List Thing} :
    ∀ {b b₂ : flexxasset.Bundle}, b.addModules ms = .ok b₂ →
    b₂._modules = b._modules ++ ms ∧ b₂._name = b._name ∧
      b₂._module_name = b._module_name := by
  induction ms with
  | nil =>
    intro b b₂ h
    simp only [flexxasset.Bundle.addModules] at h
    cases h
    exact ⟨by simp, rfl, rfl⟩
  | cons m rest ih =>
    intro b b₂ h
    simp only [flexxasset.Bundle.addModules] at h
    cases hadd : b.add_module m with
    | error e =>
      rw [hadd] at h
      exact absurd h (by simp)
    | ok bmid =>
      rw [hadd] at h
      obtain ⟨h1, h2, h3⟩ := ih h
      obtain ⟨g1, g2, g3⟩ := add_module_fields hadd
      refine ⟨?_, by rw [h2, g2], by rw [h3, g3]⟩
      rw [h1, g1]
      simp

theorem charListLe_total : ∀ x y : List Char,
    flexxasset.charListLe x y = true ∨ flexxasset.charListLe y x = true := by
  intro x
  induction x with
  | nil => intro y; exact Or.inl rfl
  | cons a as ih =>
    intro y
    cases y with
    | nil => exact Or.inr rfl
    | cons b bs =>
      by_cases hab : a = b
      · subst hab
        simp only [flexxasset.charListLe, if_pos rfl]
        exact ih bs
      · simp only [flexxasset.charListLe, if_neg hab, if_neg (fun h : b = a => hab h.symm)]
        have hne : a.toNat ≠ b.toNat := fun h => hab (Char.ext (UInt32.ext h))
        rcases Nat.lt_or_ge a.toNat b.toNat with h | h
        · exact Or.inl (decide_eq_true h)
        · exact Or.inr (decide_eq_true (by omega))

theorem charListLe_antisymm : ∀ x y : List Char,
    flexxasset.charListLe x y = true → flexxasset.charListLe y x = true → x = y := by
  intro x
  induction x with
  | nil =>
    intro y _ h2
    cases y with
    | nil => rfl
    | cons b bs => exact absurd h2 (by simp [flexxasset.charListLe])
  | cons a as ih =>
    intro y h1 h2
    cases y with
    | nil => exact absurd h1 (by simp [flexxasset.charListLe])
    | cons b bs =>
      by_cases hab : a = b
      · subst hab
        simp only [flexxasset.charListLe, if_pos rfl] at h1 h2
        rw [ih bs h1 h2]
      · simp only [flexxasset.charListLe, if_neg hab, if_neg (fun h : b = a => hab h.symm)] at h1 h2
        have hl1 := of_decide_eq_true h1
        have hl2 := of_decide_eq_true h2
        omega

theorem charListLe_trans : ∀ x y z : List Char,
    flexxasset.charListLe x y = true → flexxasset.charListLe y z = true →
    flexxasset.charListLe x z = true := by
  intro x
  induction x with
  | nil => intro y z _ _; rfl
  | cons a as ih =>
    intro y z h1 h2
    cases y with
    | nil => exact absurd h1 (by simp [flexxasset.charListLe])
    | cons b bs =>
      cases z with
      | nil => exact absurd h2 (by simp [flexxasset.charListLe])
      | cons c cs =>
        by_cases hab : a = b
        · subst hab
          simp only [flexxasset.charListLe, if_pos rfl] at h1
          by_cases hac : a = c
          · subst hac
            simp only [flexxasset.charListLe, if_pos rfl] at h2 ⊢
            exact ih bs cs h1 h2
          · simp only [flexxasset.charListLe, if_neg hac,
              if_neg (fun h : c = a => hac h.symm)] at h2 ⊢
            exact h2
        · simp only [flexxasset.charListLe, if_neg hab,
            if_neg (fun h : b = a => hab h.symm)] at h1
          have hl1 := of_decide_eq_true h1
          by_cases hbc : b = c
          · subst hbc
            have hac : a ≠ b := hab
            simp only [flexxasset.charListLe, if_neg hac,
              if_neg (fun h : b = a => hac h.symm)]
            exact decide_eq_true hl1
          · simp only [flexxasset.charListLe, if_neg hbc,
              if_neg (fun h : c = b => hbc h.symm)] at h2
            have hl2 := of_decide_eq_true h2
            have hac : a ≠ c := by
              intro hcc
              subst hcc
              omega
            simp only [flexxasset.charListLe, if_neg hac,
              if_neg (fun h : c = a => hac h.symm)]
            exact decide_eq_true (by omega)

theorem string_ext_of_data {a b : String} (h : a.data = b.data) : a = b := by
  cases a
  cases b
  congr

theorem sorted_perm_eq_of_nodup_names :
    ∀ {l₁ l₂ : List Thing}, l₁.Perm l₂ → (namesOf l₁).Nodup →
    List.Pairwise (fun a b : Thing => flexxasset.charListLe a.name.data b.name.data = true) l₁ →
    List.Pairwise (fun a b : Thing => flexxasset.charListLe a.name.data b.name.data = true) l₂ → l₁ = l₂ := by
  intro l₁
  induction l₁ with
  | nil =>
    intro l₂ hp _ _ _
    have := hp.symm.eq_nil
    rw [this]
  | cons a t ih =>
    intro l₂ hp hnd hs₁ hs₂
    cases l₂ with
    | nil => exact absurd hp.eq_nil (by simp)
    | cons b t₂ =>
      have hab : a = b := by
        by_cases hc : a = b
        · exact hc
        · exfalso
          have hbmem : b ∈ a :: t := hp.mem_iff.mpr (List.mem_cons_self _ _)
          have hamem : a ∈ b :: t₂ := hp.mem_iff.mp (List.mem_cons_self _ _)
          have hbt : b ∈ t := by
            cases hbmem with
            | head => exact absurd rfl (fun hh => hc hh.symm)
            | tail _ hmem => exact hmem
          have hat₂ : a ∈ t₂ := by
            cases hamem with
            | head => exact absurd rfl hc
            | tail _ hmem => exact hmem
          have h1 : flexxasset.charListLe a.name.data b.name.data = true := (List.pairwise_cons.mp hs₁).1 b hbt
          have h2 : flexxasset.charListLe b.name.data a.name.data = true :=
            (List.pairwise_cons.mp hs₂).1 a hat₂
          have heqn : a.name = b.name :=
            string_ext_of_data (charListLe_antisymm _ _ h1 h2)
          have : a = b := List.inj_on_of_nodup_map (l := a :: t)
            (by simpa [namesOf] using hnd)
            (List.mem_cons_self _ _) (List.mem_cons_of_mem _ hbt) heqn
          exact hc this
      subst hab
      have ht : t = t₂ := by
        apply ih hp.cons_inv
        · have hh : (a.name :: t.map Thing.name).Nodup := by
            simpa [namesOf] using hnd
          simpa [namesOf] using hh.of_cons
        · exact (List.pairwise_cons.mp hs₁).2
        · exact (List.pairwise_cons.mp hs₂).2
      rw [ht]

theorem insertSorted_perm (m : Thing) :
    ∀ l : List Thing, (flexxasset.insertSorted m l).Perm (m :: l) := by
  intro l
  induction l with
  | nil => simp [flexxasset.insertSorted]
  | cons x xs ih =>
    unfold flexxasset.insertSorted
    by_cases hc : flexxasset.charListLe m.name.data x.name.data = true
    · rw [if_pos hc]
    · rw [if_neg hc]
      exact (ih.cons x).trans (List.Perm.swap m x xs)

theorem sortByName_perm :
    ∀ l : List Thing, (flexxasset.sortByName l).Perm l := by
  intro l
  induction l with
  | nil => simp [flexxasset.sortByName]
  | cons m ms ih =>
    unfold flexxasset.sortByName
    exact (insertSorted_perm m _).trans (ih.cons m)

theorem insertSorted_pairwise (m : Thing) :
    ∀ {l : List Thing}, List.Pairwise (fun a b : Thing => flexxasset.charListLe a.name.data b.name.data = true) l →
    List.Pairwise (fun a b : Thing => flexxasset.charListLe a.name.data b.name.data = true)
      (flexxasset.insertSorted m l) := by
  intro l
  induction l with
  | nil =>
    intro _
    simp [flexxasset.insertSorted]
  | cons x xs ih =>
    intro h
    obtain ⟨hx, hxs⟩ := List.pairwise_cons.mp h
    unfold flexxasset.insertSorted
    by_cases hc : flexxasset.charListLe m.name.data x.name.data = true
    · rw [if_pos hc]
      apply List.pairwise_cons.mpr
      refine ⟨?_, h⟩
      intro y hy
      cases hy with
      | head => exact hc
      | tail _ hmem => exact charListLe_trans _ _ _ hc (hx y hmem)
    · rw [if_neg hc]
      apply List.pairwise_cons.mpr
      constructor
      · intro y hy
        have hy₂ : y ∈ m :: xs := (insertSorted_perm m xs).mem_iff.mp hy
        cases hy₂ with
        | head =>
          cases charListLe_total m.name.data x.name.data with
          | inl hle => exact absurd hle hc
          | inr hle => exact hle
        | tail _ hmem => exact hx y hmem
      · exact ih hxs

theorem sortByName_sorted :
    ∀ l : List Thing,
    List.Pairwise (fun a b : Thing => flexxasset.charListLe a.name.data b.name.data = true)
      (flexxasset.sortByName l) := by
  intro l
  induction l with
  | nil => simp [flexxasset.sortByName]
  | cons m ms ih =>
    unfold flexxasset.sortByName
    exact insertSorted_pairwise m ih

theorem sortByName_perm_eq {l₁ l₂ : List Thing} (hperm : l₁.Perm l₂)
    (hnd : (namesOf l₁).Nodup) :
    flexxasset.sortByName l₁ = flexxasset.sortByName l₂ := by
  apply sorted_perm_eq_of_nodup_names
  · exact (sortByName_perm l₁).trans (hperm.trans (sortByName_perm l₂).symm)
  · have hp : (namesOf (flexxasset.sortByName l₁)).Perm (namesOf l₁) :=
      (sortByName_perm l₁).map Thing.name
    exact hp.symm.nodup hnd
  · exact sortByName_sorted l₁
  · exact sortByName_sorted l₂

/-- C5: for uniquely-named modules, adding the same collection of modules to
a bundle in any two insertion orders yields the same dependency-ordered
member sequence (the `modules` property first sorts members by name, erasing
insertion order, then runs the solver), and hence the same bundle text for
any code generator. -/
theorem bundle_insertion_order_invariant (b b₁ b₂ : flexxasset.Bundle)
    (ms₁ ms₂ : List Thing) (hperm : ms₁.Perm ms₂)
    (h₁ : b.addModules ms₁ = .ok b₁) (h₂ : b.addModules ms₂ = .ok b₂)
    (hnd : (namesOf (b._modules ++ ms₁)).Nodup) :
    b₁.modules = b₂.modules ∧
      ∀ gj gc, b₁.to_string gj gc = b₂.to_string gj gc := by
  obtain ⟨hm₁, hn₁, _⟩ := addModules_fields h₁
  obtain ⟨hm₂, hn₂, _⟩ := addModules_fields h₂
  have hpm : b₁._modules.Perm b₂._modules := by
    rw [hm₁, hm₂]
    exact List.Perm.append_left b._modules hperm
  have hnd₁ : (namesOf b₁._modules).Nodup := by
    rw [hm₁]
    exact hnd
  have hsort : flexxasset.sortByName b₁._modules = flexxasset.sortByName b₂._modules :=
    sortByName_perm_eq hpm hnd₁
  have hmods : b₁.modules = b₂.modules := by
    unfold flexxasset.Bundle.modules
    rw [hsort]
  refine ⟨hmods, ?_⟩
  intro gj gc
  unfold flexxasset.Bundle.to_string
  rw [hmods, hn₁, hn₂]

/-- The bundle `m.js` and the two modules of the C5 example. -/
def bundleM : flexxasset.Bundle := ⟨"m.js", "m", [], []⟩

/-- Module `m.a` with no dependencies. -/
def thingMA : Thing := ⟨"m.a", []⟩

/-- Module `m.b` depending on `m.a`. -/
def thingMB : Thing := ⟨"m.b", ["m.a"]⟩

/-- C5, witness: the two insertion orders of the claim's concrete example
yield the same ordered members, namely `[m.a, m.b]`. -/
theorem bundle_insertion_order_invariant_witness :
    flexxasset.Bundle.modules ⟨"m.js", "m", [thingMA, thingMB], []⟩ =
        flexxasset.Bundle.modules ⟨"m.js", "m", [thingMB, thingMA], []⟩ ∧
      flexxasset.Bundle.modules ⟨"m.js", "m", [thingMA, thingMB], []⟩ =
        .ok [thingMA, thingMB] := by
  constructor
  · exact (bundle_insertion_order_invariant bundleM
      ⟨"m.js", "m", [thingMA, thingMB], []⟩ ⟨"m.js", "m", [thingMB, thingMA], []⟩
      [thingMA, thingMB] [thingMB, thingMA] (by decide) (by decide) (by decide)
      (by decide)).1
  · decide

/-! ### `assetstore.py`: assets, the shared store and the session overlay

The `flexxstore` namespace models `flexx/app/assetstore.py`.  External
collaborators (the PyScript compiler's `create_js_module`,
`get_all_std_names`, the `HEADER` license banner and remote fetching) are
passed in as an `Externals` record; sources are either literal code strings
or `Model`-class payloads (a name plus the JS/CSS the external code
generator extracts for the class).  Python-module and function sources also
go through the external PyScript compiler and are not needed by any claim,
so `Source` has no constructor for them.  Registries (`OrderedDict`/`dict`)
are insertion-ordered association lists; `bytes` blobs are `List UInt8`.
-/

/-- Python `bytes`. -/
abbrev Bytes := List UInt8

namespace flexxstore

/-- The data of a `Model` subclass as the core sees it: its class name and
the JS/CSS code the external code generator produces for it. -/
structure ModelClass where
  name : String
  jsCode : String
  cssCode : String
deriving DecidableEq, Repr

/-- One element of `Asset.sources`. -/
inductive Source where
  | str (s : String)
  | cls (c : ModelClass)
deriving DecidableEq, Repr

/-- `Asset._exports` when present: a single name or a list of names. -/
inductive ExportsVal where
  | str (s : String)
  | list (l : List String)
deriving DecidableEq, Repr

/-- The external collaborators of `assetstore.py`. -/
structure Externals where
  fetch : String → String
  createJsModule : String → String → List String → Option ExportsVal → String
  stdFuncNames : List String
  stdMethodNames : List String
  header : String

/-- First-match lookup in an insertion-ordered association list (Python
`dict.get`; keys are unique because insertions are membership-guarded). -/
def alGet {α : Type} (m : List (String × α)) (k : String) : Option α :=
  (m.find? (fun p => p.1 = k)).map (fun p => p.2)

/-- In-place overwrite of an existing key (Python `d[k] = v` keeps the
key's position in insertion order). -/
def alSet {α : Type} (m : List (String × α)) (k : String) (v : α) :
    List (String × α) :=
  m.map (fun p => if p.1 = k then (k, v) else p)

/-- `Asset._handle_uri(s)`: fetch `http(s)://` and `file://` sources through
the external fetcher, return plain code unchanged. -/
def handle_uri (ext : Externals) (s : String) : String :=
  if isUri s then ext.fetch s else s

/-- An `assetstore.py` `Asset` object (its fields after construction). -/
structure Asset where
  _name : String
  _remote : Option String
  _sources : List Source
  _deps : List String
  _imports : List String
  _exports : Option ExportsVal
  _need_pyscript_std : Bool
  _cache : Option String
deriving DecidableEq, Repr

/-- `Asset._convert_to_code(ob)` restricted to the modelled source kinds:
a string goes through `_handle_uri` and is stripped; a `Model` class yields
its JS or CSS code plus its class name, and marks the pyscript standard
library as needed. -/
def convert_to_code (ext : Externals) (isjs : Bool) :
    Source → String × List String × Bool
  | .str s => (pyStrip (handle_uri ext s), [], false)
  | .cls c => (pyStrip (if isjs then c.jsCode else c.cssCode), [c.name], true)

/-- One step of `Asset._get_code_and_names`: nonempty code is appended and
its public (non-underscore) names collected; the needs-std flag latches. -/
def gcnStep (ext : Externals) (isjs : Bool)
    (acc : List String × List String × Bool) (ob : Source) :
    List String × List String × Bool :=
  let r := convert_to_code ext isjs ob
  if r.1 ≠ "" then
    (acc.1 ++ [r.1],
     acc.2.1 ++ r.2.1.filter (fun n => n ≠ "" && !(pyStartswith n "_")),
     acc.2.2 || r.2.2)
  else (acc.1, acc.2.1, acc.2.2 || r.2.2)

/-- `Asset._get_code_and_names()`: code pieces, public names, and whether
the pyscript standard library became needed; a trailing empty piece is
appended unless the code is a single newline-free string. -/
def get_code_and_names (ext : Externals) (isjs : Bool) (sources : List Source) :
    List String × List String × Bool :=
  let r := sources.foldl (gcnStep ext isjs) ([], [], false)
  (if r.1.length = 1 && !(hasNewline (r.1.getD 0 "")) then r.1 else r.1 ++ [""],
   r.2.1, r.2.2)

/-- Replace the first occurrence of a string in a list (Python
`l[l.index(x)] = y`). -/
def replaceFirst (tgt repl : String) : List String → List String
  | [] => []
  | x :: xs => if x = tgt then repl :: xs else x :: replaceFirst tgt repl xs

/-- The `var a = _py.a, ...;\nvar b = _py.b, ...;` prelude inserted in front
of module code that imports the pyscript standard library. -/
def stdPrelude (ext : Externals) : String :=
  "var " ++
    String.intercalate ", " (ext.stdFuncNames.map (fun n => n ++ " = _py." ++ n)) ++
    ";\nvar " ++
    String.intercalate ", " (ext.stdMethodNames.map (fun n => n ++ " = _py." ++ n)) ++
    ";"

/-- The body of `Asset.to_string()`: computes and caches the asset's code
(the run happens at construction time for every non-remote asset).  Returns
the updated object (`to_string` also mutates `_exports`, `_imports` and
`_need_pyscript_std` for module assets). -/
def Asset.bake (ext : Externals) (a : Asset) : Asset :=
  match a._cache with
  | some _ => a
  | none =>
    let isjs := isJsName a._name
    let withHeader := fun (need : Bool) (cache : String) =>
      if need || pyStartswith a._name "pyscript-std" then
        ext.header ++ "\n\n" ++ cache
      else cache
    if a._exports.isSome then
      let lib := "pyscript-std.js"
      let r := get_code_and_names ext isjs a._sources
      let need := a._need_pyscript_std || r.2.2
      let exports₂ : Option ExportsVal :=
        match a._exports with
        | some (.list l) => if r.2.1 ≠ [] then some (.list (l ++ r.2.1)) else some (.list l)
        | e => e
      let imports₂ :=
        if need && !(a._imports.contains lib) then a._imports ++ [lib] else a._imports
      let withPy :=
        if imports₂.contains lib then
          (replaceFirst lib (lib ++ " as _py") imports₂, stdPrelude ext :: r.1)
        else (imports₂, r.1)
      let cache := ext.createJsModule a._name
        (String.intercalate "\n\n" withPy.2) withPy.1 exports₂
      { a with _cache := some (withHeader need cache), _exports := exports₂,
               _imports := withPy.1, _need_pyscript_std := need }
    else
      match a._remote with
      | some uri =>
        { a with _cache := some (withHeader a._need_pyscript_std (handle_uri ext uri)) }
      | none =>
        let r := get_code_and_names ext isjs a._sources
        let need := a._need_pyscript_std || r.2.2
        { a with _cache := some (withHeader need (String.intercalate "\n\n" r.1)),
                 _need_pyscript_std := need }

/-- `Asset.to_string()`: the cached code (computing it first if needed). -/
def Asset.to_string (ext : Externals) (a : Asset) : String :=
  ((a.bake ext)._cache).getD ""

/-- `Asset.__init__` from `assetstore.py` (lines 256-328): name and suffix
validation, remote detection, deps/imports splitting on `' as '`, exports
validation, and the eager `to_string()` run for non-remote assets. -/
def Asset.make (ext : Externals) (name? : Option String)
    (sources? : Option (List Source)) (deps? : Option (List String))
    (exports? : Option ExportsVal) : Except PyErr Asset :=
  match name? with
  | none => .error .typeError
  | some name =>
    if suffixOk name = false then .error .valueError
    else
      let isjs := isJsName name
      let sources := sources?.getD []
      if isUri name ∧ sources.length ≠ 0 then .error .typeError
      else if ¬ isUri name ∧ sources.length = 0 then .error .typeError
      else
        match (match deps? with
               | none => if isUri name then some ([] : List String) else none
               | some d => some d) with
        | none => .error .typeError
        | some deps =>
          if isjs = false ∧ exports?.isSome then .error .typeError
          else
            let a : Asset :=
              { _name := if isUri name then uriBasename name else name,
                _remote := if isUri name then some name else none,
                _sources := sources,
                _deps := deps.map splitAsHead,
                _imports := deps.filter (fun d => hasAs d),
                _exports := if isjs = false then none else exports?,
                _need_pyscript_std := false, _cache := none }
            if isUri name then .ok a else .ok (a.bake ext)

/-- The `Asset.deps` property. -/
def Asset.deps (a : Asset) : List String :=
  a._deps

/-- The shared `AssetStore` registries.  (The `_modules` dict feeding
`collect_modules` belongs to the Model/PyScript pipeline, which no modelled
operation touches.) -/
structure AssetStore where
  _assets : List (String × Asset)
  _data : List (String × Bytes)
deriving DecidableEq

/-- `AssetStore.get_asset(name)`: raises `ValueError` unless the name ends
in `.js`/`.css` (case-insensitively), then an exact, case-sensitive lookup
returning `None` on a miss. -/
def AssetStore.get_asset (st : AssetStore) (name : String) :
    Except PyErr (Option Asset) :=
  if suffixOk name = false then .error .valueError
  else .ok (alGet st._assets name)

/-- `AssetStore.get_data(name)`: exact lookup, `None` on a miss, no checks. -/
def AssetStore.get_data (st : AssetStore) (name : String) : Option Bytes :=
  alGet st._data name

/-- `AssetStore.add_shared_data(name, data)`: duplicate names are rejected
before any mutation; on success the blob is appended and the shared relative
path returned.  (The `file://`/`http(s)://` eager fetch turns a URI argument
into bytes before storage and is external I/O; the model takes the bytes.)
The returned store is the state after the call — unchanged when it raised. -/
def AssetStore.add_shared_data (st : AssetStore) (name : String) (data : Bytes) :
    Except PyErr String × AssetStore :=
  if (alGet st._data name).isSome then (.error .valueError, st)
  else (.ok ("_data/shared/" ++ name), { st with _data := st._data ++ [(name, data)] })

/-- `AssetStore.add_shared_asset(asset)` (the asset-instance branch):
duplicate names are rejected before any mutation.  The returned store is the
state after the call — unchanged when it raised. -/
def AssetStore.add_shared_asset (st : AssetStore) (a : Asset) :
    Except PyErr Unit × AssetStore :=
  if (alGet st._assets a._name).isSome then (.error .valueError, st)
  else (.ok (), { st with _assets := st._assets ++ [(a._name, a)] })

end flexxstore

namespace flexxstore

/-- The data of an external `JSModule` object as `SessionAssets` uses it:
its name, its module dependencies, and its asset dependencies. -/
structure JSModule where
  name : String
  deps : List String
  asset_deps : List Asset
deriving DecidableEq

/-- The per-session state of `SessionAssets`.  `_assets` values of `none`
mark store-provided assets (Python stores `None` there); `_outbox` records
the `DEFINE-*` commands handed to the transport by `_send_command`.
(`_known_classes` and the store's module dict belong to
`register_model_class`, which no claim touches.) -/
structure SessionAssets where
  _store : AssetStore
  _id : String
  _app_name : String
  _modules : List (String × JSModule)
  _assets : List (String × Option Asset)
  _data : List (String × Bytes)
  _served : Bool
  _extra_model_classes : List ModelClass
  _outbox : List String
deriving DecidableEq

/-- `SessionAssets.get_asset(name)`: the suffix check, then the session
registry (a stored `None` falls through), then the shared store. -/
def SessionAssets.get_asset (s : SessionAssets) (name : String) :
    Except PyErr (Option Asset) :=
  if suffixOk name = false then .error .valueError
  else
    match alGet s._assets name with
    | some (some a) => .ok (some a)
    | _ => s._store.get_asset name

/-- `SessionAssets.get_data(name)`: the session blob if present, else the
shared store's. -/
def SessionAssets.get_data (s : SessionAssets) (name : String) : Option Bytes :=
  match alGet s._data name with
  | some d => some d
  | none => s._store.get_data name

/-- Python `s.split('.')[-1]`: everything after the last dot. -/
def lastDotTail (s : String) : String :=
  ⟨(s.data.reverse.takeWhile (fun c => c ≠ '.')).reverse⟩

/-- Python `s.upper()` (ASCII). -/
def pyUpper (s : String) : String :=
  ⟨s.data.map Char.toUpper⟩

/-- `_inject_asset_dynamically` on a live session (the `_send_command`
branch; the notebook branch consults the session manager and is external):
pushes `DEFINE-<SUFFIX> <code>` through the transport. -/
def injectAsset (ext : Externals) (s : SessionAssets) (a : Asset) : SessionAssets :=
  { s with _outbox :=
      s._outbox ++ ["DEFINE-" ++ pyUpper (lastDotTail a._name) ++ " " ++ a.to_string ext] }

mutual

/-- `SessionAssets._register_asset(asset)`: the early-exit on a known name
(remote assets may overwrite; a `None` marker or the identical asset is
fine; anything else raises), dynamic injection once served, and the
store-identity check that records `None` for shared assets.  Python's `is`
identity is modelled as structural equality.  `fuel` bounds the recursion
through `_collect_dependencies` (the membership guard makes it terminate in
Python); callers pass more fuel than there are store assets. -/
def registerAsset (ext : Externals) : Nat → SessionAssets → Asset →
    Except PyErr SessionAssets
  | 0, _, _ => .error .fuelOut
  | fuel + 1, s, a =>
    match alGet s._assets a._name with
    | some cur =>
      if a._remote.isSome then .ok { s with _assets := alSet s._assets a._name (some a) }
      else if cur = none ∨ cur = some a then .ok s
      else .error .valueError
    | none =>
      if s._served then
        match collectDeps ext fuel s a._deps true with
        | .error e => .error e
        | .ok s₂ => .ok (injectAsset ext s₂ a)
      else
        match s._store.get_asset a._name with
        | .error e => .error e
        | .ok r =>
          if r = some a then
            collectDeps ext fuel
              { s with _assets := s._assets ++ [(a._name, none)] } a._deps false
          else
            collectDeps ext fuel
              { s with _assets := s._assets ++ [(a._name, some a)] } a._deps false
termination_by fuel _ _ => (fuel, 0)

/-- `SessionAssets._collect_dependencies(asset, warn)`: register every
dependency available from the store that the session does not already have
(a missing one only logs a warning when `warn` is set). -/
def collectDeps (ext : Externals) : Nat → SessionAssets → List String → Bool →
    Except PyErr SessionAssets
  | _, s, [], _ => .ok s
  | fuel, s, dep :: rest, warn =>
    match (if (alGet s._assets dep).isSome then .ok s
           else
             match alGet s._store._assets dep with
             | some sa => registerAsset ext fuel s sa
             | none => .ok s : Except PyErr SessionAssets) with
    | .error e => .error e
    | .ok s₂ => collectDeps ext fuel s₂ rest warn
termination_by fuel _ deps _ => (fuel, deps.length + 1)

end

/-- Stable insertion for `sorted(self._modules.values(), key=lambda x: x.name)`. -/
def insertSortedMod (m : JSModule) : List JSModule → List JSModule
  | [] => [m]
  | x :: xs =>
    if flexxasset.charListLe m.name.data x.name.data then m :: x :: xs
    else x :: insertSortedMod m xs

/-- `sorted(..., key=lambda x: x.name)` as a stable insertion sort. -/
def sortModsByName : List JSModule → List JSModule
  | [] => []
  | m :: ms => insertSortedMod m (sortModsByName ms)

/-- The dependency scan of `get_assets_in_order.sort_modules`: a dependency
missing from the modules dict only warns; one present in the dict but not in
the name list would make `list.index` raise `ValueError`; a dependency found
at a later position is moved to the current index. -/
def smScan (mods : List (String × JSModule)) (names : List String) (index : Nat) :
    List String → Except PyErr (Option (List String))
  | [] => .ok none
  | dep :: rest =>
    if (alGet mods dep).isNone then smScan mods names index rest
    else
      match firstIdx dep names with
      | none => .error .valueError
      | some j =>
        if index < j then .ok (some (List.insertIdx index dep (names.eraseIdx j)))
        else smScan mods names index rest

/-- The inner `while True` loop of `sort_modules` (same shape as the
solver's, but reading deps from the session's modules dict; a name missing
from the dict raises `KeyError`). -/
def smInner (mods : List (String × JSModule)) (index : Nat) :
    List String → List String → Nat → Except PyErr (List String)
  | _, _, 0 => .error .fuelOut
  | names, seen, fuel + 1 =>
    let name := names.getD index ""
    if name ∈ seen then .error .runtimeError
    else
      match alGet mods name with
      | none => .error .keyError
      | some m =>
        match smScan mods names index m.deps with
        | .error e => .error e
        | .ok none => .ok names
        | .ok (some names₂) => smInner mods index names₂ (seen ++ [name]) fuel

/-- The outer loop of `sort_modules`. -/
def smOuter (mods : List (String × JSModule)) :
    List String → Nat → Nat → Except PyErr (List String)
  | names, _, 0 => .ok names
  | names, index, k + 1 =>
    match smInner mods index names [] (names.length + 1) with
    | .error e => .error e
    | .ok names₂ => smOuter mods names₂ (index + 1) k

/-- `sort_modules(modules)` from `get_assets_in_order`: order the module
names, then read the modules back out of the dict. -/
def sort_modules (mods : List (String × JSModule)) (modules : List JSModule) :
    Except PyErr (List JSModule) := do
  let names := modules.map JSModule.name
  let sorted ← smOuter mods names 0 names.length
  sorted.mapM (fun n =>
    match alGet mods n with
    | some m => pure m
    | none => throw PyErr.keyError)

/-- One module's contribution to the JS/CSS asset lists: its `asset_deps`
(each added once — Python's identity-based `in` is modelled as structural
membership), then the store lookups `<name>.js` and `<name>.css`, appended
even when they return `None`. -/
def modAssetStep (st : AssetStore)
    (acc : List (Option Asset) × List (Option Asset)) (m : JSModule) :
    Except PyErr (List (Option Asset) × List (Option Asset)) := do
  let r := m.asset_deps.foldl (fun (acc₂ : List (Option Asset) × List (Option Asset)) a =>
      if isJsName a._name then
        (if (some a) ∈ acc₂.1 then acc₂.1 else acc₂.1 ++ [some a], acc₂.2)
      else
        (acc₂.1, if (some a) ∈ acc₂.2 then acc₂.2 else acc₂.2 ++ [some a])) acc
  let aj ← st.get_asset (m.name ++ ".js")
  let ac ← st.get_asset (m.name ++ ".css")
  pure (r.1 ++ [aj], r.2 ++ [ac])

/-- The synthetic init payload
`'var flexx = {app_name: "%s", session_id: "%s"};'`. -/
def initJsString (app_name id : String) : String :=
  "var flexx = \x7bapp_name: \"" ++ app_name ++ "\", session_id: \"" ++ id ++
    "\"\x7d;"

/-- `SessionAssets.get_assets_in_order(css_reset)` (lines 961-1067): sort
the session's modules, collect their asset deps and per-module store assets,
create and register the `extra-classes` assets if needed, run the
`for asset in self._assets` loop — which iterates the dict's *keys* and
hence raises `AttributeError` (`str` has no `.name`) as soon as the session
has any asset entry — then prepend `reset.css` (when requested), the module
loader, and the freshly constructed `embed/flexx-init.js` asset, and mark
the session served. -/
def extraClassesBranch (ext : Externals) (s : SessionAssets) :
    Except PyErr SessionAssets :=
  if s._extra_model_classes.length ≠ 0 ∧
      (alGet s._assets "extra-classes.js").isNone then
    match Asset.make ext (some "extra-classes.js")
        (some (s._extra_model_classes.map Source.cls)) (some [])
        (some (.list [])) with
    | .error e => .error e
    | .ok a1 =>
      match registerAsset ext (s._store._assets.length + 1) s a1 with
      | .error e => .error e
      | .ok s₂ =>
        match Asset.make ext (some "extra-classes.css")
            (some (s._extra_model_classes.map Source.cls)) (some []) none with
        | .error e => .error e
        | .ok a2 => registerAsset ext (s₂._store._assets.length + 1) s₂ a2
  else .ok s

def SessionAssets.get_assets_in_order (ext : Externals) (s : SessionAssets)
    (css_reset : Bool) :
    Except PyErr ((List (Option Asset) × List (Option Asset)) × SessionAssets) :=
  match sort_modules s._modules (sortModsByName (s._modules.map Prod.snd)) with
  | .error e => .error e
  | .ok modules =>
  match modules.foldlM (modAssetStep s._store) ([], []) with
  | .error e => .error e
  | .ok jscss =>
  match extraClassesBranch ext s with
  | .error e => .error e
  | .ok s₂ =>
  if s₂._assets.length ≠ 0 then .error .attributeError
  else
  match (if css_reset then (s₂.get_asset "reset.css").map (fun r => r :: jscss.2)
         else .ok jscss.2) with
  | .error e => .error e
  | .ok css =>
  match s₂.get_asset "flexx-loader.js" with
  | .error e => .error e
  | .ok jl =>
  match Asset.make ext (some "embed/flexx-init.js")
      (some [Source.str (initJsString s₂._app_name s₂._id)]) (some []) none with
  | .error e => .error e
  | .ok ia => .ok ((some ia :: jl :: jscss.1, css), { s₂ with _served := true })

end flexxstore

/-! ### Claim C6 -/

theorem alGet_append_self {α : Type} (l : List (String × α)) (k : String) (v : α)
    (h : flexxstore.alGet l k = none) :
    flexxstore.alGet (l ++ [(k, v)]) k = some v := by
  induction l with
  | nil => simp [flexxstore.alGet]
  | cons p rest ih =>
    simp only [flexxstore.alGet, List.find?] at h ⊢
    by_cases hk : p.1 = k
    · rw [show (decide (p.1 = k)) = true from decide_eq_true hk] at h
      simp at h
    · rw [show (decide (p.1 = k)) = false from decide_eq_false hk] at h ⊢
      simp only [List.cons_append]
      exact ih h

/-- C6: registering a second shared asset or data entry under an existing
name raises the duplicate-name error and leaves the registry exactly as it
was: the duplicate check precedes every mutation, so the original entry
stays retrievable and untouched and nothing is added or removed. -/
theorem store_duplicate_rejected (st : flexxstore.AssetStore)
    (a a₀ : flexxstore.Asset) (n : String) (d d₀ : Bytes) :
    (flexxstore.alGet st._assets a._name = some a₀ →
      st.add_shared_asset a = (.error .valueError, st)) ∧
    (flexxstore.alGet st._data n = some d₀ →
      st.add_shared_data n d = (.error .valueError, st)) := by
  constructor
  · intro h
    unfold flexxstore.AssetStore.add_shared_asset
    rw [h]
    rfl
  · intro h
    unfold flexxstore.AssetStore.add_shared_data
    rw [h]
    rfl

/-- A tiny populated store for the C6 witness. -/
def storeC6 : flexxstore.AssetStore :=
  ⟨[("a.js", ⟨"a.js", none, [.str "x"], [], [], none, false, some "x"⟩)],
   [("icon.png", [1, 2])]⟩

/-- C6, witness: duplicate registrations against `storeC6` raise and leave
the store unchanged. -/
theorem store_duplicate_rejected_witness :
    (storeC6.add_shared_asset ⟨"a.js", none, [.str "y"], [], [], none, false, some "y"⟩ =
      (.error .valueError, storeC6)) ∧
    (storeC6.add_shared_data "icon.png" [9] = (.error .valueError, storeC6)) :=
  ⟨(store_duplicate_rejected storeC6
      ⟨"a.js", none, [.str "y"], [], [], none, false, some "y"⟩
      ⟨"a.js", none, [.str "x"], [], [], none, false, some "x"⟩
      "icon.png" [9] [1, 2]).1 (by decide),
   (store_duplicate_rejected storeC6
      ⟨"a.js", none, [.str "y"], [], [], none, false, some "y"⟩
      ⟨"a.js", none, [.str "x"], [], [], none, false, some "x"⟩
      "icon.png" [9] [1, 2]).2 (by decide)⟩

/-! ### Claim C8 -/

/-- The empty store. -/
def emptyStore : flexxstore.AssetStore := ⟨[], []⟩

/-- C8, counterexample: the claim says the store's asset lookup is a total
read that never raises, for all names including those without a `.js`/`.css`
suffix; but `get_asset("foo.txt")` raises `ValueError` (only `get_data` is
total). -/
theorem store_get_asset_suffix_counterexample :
    emptyStore.get_asset "foo.txt" = .error .valueError ∧
      emptyStore.get_data "foo.txt" = none := by
  constructor
  · decide
  · decide

/-- C8 (amended): `get_data` is a pure total read (case-sensitive exact
match, `None` on a miss, never raises) and an entry just registered is
returned under exactly its name; `get_asset` behaves the same way **only**
for names with a `.js`/`.css` suffix (case-insensitively), and raises
`ValueError` for every other name. -/
theorem store_lookup_amended (st st₂ : flexxstore.AssetStore) (n p : String)
    (a : flexxstore.Asset) (d : Bytes) :
    (suffixOk n = true → st.get_asset n = .ok (flexxstore.alGet st._assets n)) ∧
    (suffixOk n = false → st.get_asset n = .error .valueError) ∧
    (st.get_data n = flexxstore.alGet st._data n) ∧
    (suffixOk a._name = true → st.add_shared_asset a = (.ok (), st₂) →
      st₂.get_asset a._name = .ok (some a)) ∧
    (st.add_shared_data n d = (.ok p, st₂) → st₂.get_data n = some d) := by
  refine ⟨?_, ?_, rfl, ?_, ?_⟩
  · intro h
    unfold flexxstore.AssetStore.get_asset
    rw [h]
    rfl
  · intro h
    unfold flexxstore.AssetStore.get_asset
    rw [h]
    rfl
  · intro hsuf hadd
    unfold flexxstore.AssetStore.add_shared_asset at hadd
    split at hadd
    · exact absurd hadd (by simp)
    · rename_i hmiss
      cases hadd
      unfold flexxstore.AssetStore.get_asset
      rw [hsuf]
      simp only [Bool.true_eq_false, if_false]
      rw [alGet_append_self]
      cases hget : flexxstore.alGet st._assets a._name with
      | none => rfl
      | some x => rw [hget] at hmiss; simp at hmiss
  · intro hadd
    unfold flexxstore.AssetStore.add_shared_data at hadd
    split at hadd
    · exact absurd hadd (by simp)
    · rename_i hmiss
      cases hadd
      unfold flexxstore.AssetStore.get_data
      rw [alGet_append_self]
      cases hget : flexxstore.alGet st._data n with
      | none => rfl
      | some x => rw [hget] at hmiss; simp at hmiss

/-- C8, witness: the amended theorem at a populated store, a suffixed hit, a
suffix-less name, and a fresh registration. -/
theorem store_lookup_amended_witness :
    storeC6.get_asset "a.js" =
        .ok (some ⟨"a.js", none, [.str "x"], [], [], none, false, some "x"⟩) ∧
      storeC6.get_asset "foo.txt" = .error .valueError ∧
      storeC6.get_data "nope.png" = none :=
  ⟨by
     have h := (store_lookup_amended storeC6 storeC6 "a.js" ""
       ⟨"a.js", none, [.str "x"], [], [], none, false, some "x"⟩ []).1 (by decide)
     rw [h]
     decide,
   (store_lookup_amended storeC6 storeC6 "foo.txt" ""
       ⟨"a.js", none, [.str "x"], [], [], none, false, some "x"⟩ []).2.1 (by decide),
   by decide⟩

/-! ### Claim C9 -/

/-- Externals with inert collaborators, used for concrete sessions/assets. -/
def noExternals : flexxstore.Externals :=
  ⟨fun _ => "", fun _ _ _ _ => "", [], [], "HDR"⟩

/-- C9, counterexample: the claim says constructing a local unit with an
empty source text fails; both `Asset.__init__` implementations accept an
empty source string (in `asset.py` only `source=None` raises, and in
`assetstore.py` a one-element source list `['']` passes the length check). -/
theorem asset_empty_source_counterexample :
    flexxasset.Asset.make (some "a.js") (some "") = .ok ⟨"a.js", none, some ""⟩ ∧
    flexxstore.Asset.make noExternals (some "a.js") (some [.str ""]) (some []) none =
      .ok ⟨"a.js", none, [.str ""], [], [], none, false, some ""⟩ := by
  constructor
  · decide
  · decide

/-- C9 (amended): a local (non-URI-named) unit must be given *a* source —
construction fails with `TypeError` when none is supplied at all — but an
empty source string is accepted by both constructors. -/
theorem asset_source_requirements (ext : flexxstore.Externals) (name : String)
    (hsuf : suffixOk name = true) (huri : isUri name = false) :
    flexxasset.Asset.make (some name) none = .error .typeError ∧
    (∃ a, flexxasset.Asset.make (some name) (some "") = .ok a) ∧
    flexxstore.Asset.make ext (some name) none (some []) none = .error .typeError ∧
    (∃ a, flexxstore.Asset.make ext (some name) (some [.str ""]) (some []) none =
      .ok a) := by
  refine ⟨?_, ?_, ?_, ?_⟩
  · simp only [flexxasset.Asset.make]
    rw [hsuf, huri]
    rfl
  · simp only [flexxasset.Asset.make]
    rw [hsuf, huri]
    exact ⟨_, rfl⟩
  · simp only [flexxstore.Asset.make]
    rw [hsuf, huri]
    rfl
  · simp only [flexxstore.Asset.make]
    rw [hsuf, huri]
    by_cases hjs : isJsName name
    · rw [hjs]
      exact ⟨_, rfl⟩
    · rw [show isJsName name = false from by simp [hjs]]
      exact ⟨_, rfl⟩

/-- C9, witness: the amended theorem at the asset name `a.js`. -/
theorem asset_source_requirements_witness :
    flexxasset.Asset.make (some "a.js") none = .error .typeError ∧
      (∃ a, flexxasset.Asset.make (some "a.js") (some "") = .ok a) :=
  ⟨(asset_source_requirements noExternals "a.js" (by decide) (by decide)).1,
   (asset_source_requirements noExternals "a.js" (by decide) (by decide)).2.1⟩

/-! ### Claim C10 -/

/-- A fresh session over an empty store (id `SID`, app `APP`). -/
def freshSession : flexxstore.SessionAssets :=
  ⟨emptyStore, "SID", "APP", [], [], [], false, [], []⟩

/-- C10, counterexample: the claim says that for *every* name the session
lookups return the local entry, else the shared entry, else `None`; but for
a name without a `.js`/`.css` suffix the asset lookup raises `ValueError`
instead of returning `None`. -/
theorem session_get_asset_suffix_counterexample :
    freshSession.get_asset "x.txt" = .error .valueError ∧
      freshSession.get_data "x.txt" = none := by
  constructor
  · decide
  · decide

/-- C10 (amended): the session's data lookup layers the session view over
the shared store for every name (local blob first, then the store's, else
`None`); the asset lookup does the same for every `.js`/`.css`-suffixed name
(a session-local entry shadows the store, an entry recorded as `None` — the
store-provided marker — defers to the store), and raises `ValueError` for
any other name. -/
theorem session_lookup_layering (s : flexxstore.SessionAssets) (n : String) :
    (suffixOk n = false → s.get_asset n = .error .valueError) ∧
    (suffixOk n = true → ∀ a, flexxstore.alGet s._assets n = some (some a) →
      s.get_asset n = .ok (some a)) ∧
    (suffixOk n = true →
      (flexxstore.alGet s._assets n = none ∨ flexxstore.alGet s._assets n = some none) →
      s.get_asset n = .ok (flexxstore.alGet s._store._assets n)) ∧
    (∀ d, flexxstore.alGet s._data n = some d → s.get_data n = some d) ∧
    (flexxstore.alGet s._data n = none → s.get_data n = s._store.get_data n) := by
  refine ⟨?_, ?_, ?_, ?_, ?_⟩
  · intro h
    simp only [flexxstore.SessionAssets.get_asset]
    rw [h]
    rfl
  · intro h a hloc
    simp only [flexxstore.SessionAssets.get_asset]
    rw [h, hloc]
    rfl
  · intro h hloc
    simp only [flexxstore.SessionAssets.get_asset, flexxstore.AssetStore.get_asset]
    rw [h]
    cases hloc with
    | inl hmiss =>
      rw [hmiss]
      rfl
    | inr hnone =>
      rw [hnone]
      rfl
  · intro d hloc
    simp only [flexxstore.SessionAssets.get_data]
    rw [hloc]
  · intro hloc
    simp only [flexxstore.SessionAssets.get_data]
    rw [hloc]

/-- A small session for the C10 witness: one local asset, one store-marker
entry, one local datum, over a store holding two assets and a datum. -/
def sessionC10 : flexxstore.SessionAssets :=
  ⟨⟨[("shared.js", ⟨"shared.js", none, [.str "s"], [], [], none, false, some "s"⟩),
     ("both.js", ⟨"both.js", none, [.str "store"], [], [], none, false, some "store"⟩)],
    [("pic.png", [3])]⟩,
   "SID", "APP", [],
   [("local.js", some ⟨"local.js", none, [.str "l"], [], [], none, false, some "l"⟩),
    ("shared.js", none)],
   [("blob.bin", [5])], false, [], []⟩

/-- C10, witness: the layering theorem applied to `sessionC10`: the local
asset shadows, the `None` marker and a plain miss fall through to the store,
local data wins, missing data falls through. -/
theorem session_lookup_layering_witness :
    sessionC10.get_asset "local.js" =
        .ok (some ⟨"local.js", none, [.str "l"], [], [], none, false, some "l"⟩) ∧
      sessionC10.get_asset "shared.js" =
        .ok (some ⟨"shared.js", none, [.str "s"], [], [], none, false, some "s"⟩) ∧
      sessionC10.get_asset "x.txt" = .error .valueError ∧
      sessionC10.get_data "blob.bin" = some [5] ∧
      sessionC10.get_data "pic.png" = some [3] :=
  ⟨(session_lookup_layering sessionC10 "local.js").2.1 (by decide) _ (by decide),
   by
     have h := (session_lookup_layering sessionC10 "shared.js").2.2.1 (by decide)
       (Or.inr (by decide))
     rw [h]
     decide,
   (session_lookup_layering sessionC10 "x.txt").1 (by decide),
   (session_lookup_layering sessionC10 "blob.bin").2.2.2.1 [5] (by decide),
   by
     have h := (session_lookup_layering sessionC10 "pic.png").2.2.2.2 (by decide)
     rw [h]
     decide⟩

/-! ### Claims C1 and C7 -/

/-- The fields of a session `_register_asset` can never touch. -/
def sameCore (s s₂ : flexxstore.SessionAssets) : Prop :=
  s₂._store = s._store ∧ s₂._id = s._id ∧ s₂._app_name = s._app_name

theorem sameCore_refl (s : flexxstore.SessionAssets) : sameCore s s :=
  ⟨rfl, rfl, rfl⟩

theorem sameCore_trans {s₁ s₂ s₃ : flexxstore.SessionAssets}
    (h₁ : sameCore s₁ s₂) (h₂ : sameCore s₂ s₃) : sameCore s₁ s₃ :=
  ⟨h₂.1.trans h₁.1, h₂.2.1.trans h₁.2.1, h₂.2.2.trans h₁.2.2⟩

theorem collectDeps_core_of_register {ext : flexxstore.Externals} {fuel : Nat}
    (hreg : ∀ s a s₂, flexxstore.registerAsset ext fuel s a = .ok s₂ → sameCore s s₂) :
    ∀ deps s warn s₂, flexxstore.collectDeps ext fuel s deps warn = .ok s₂ →
      sameCore s s₂ := by
  intro deps
  induction deps with
  | nil =>
    intro s warn s₂ h
    simp only [flexxstore.collectDeps] at h
    cases h
    exact sameCore_refl _
  | cons dep rest ih =>
    intro s warn s₂ h
    simp only [flexxstore.collectDeps] at h
    by_cases hmem : (flexxstore.alGet s._assets dep).isSome
    · rw [if_pos hmem] at h
      exact ih s warn s₂ h
    · rw [if_neg hmem] at h
      cases hsa : flexxstore.alGet s._store._assets dep with
      | none =>
        simp only [hsa] at h
        exact ih s warn s₂ h
      | some sa =>
        simp only [hsa] at h
        cases hr : flexxstore.registerAsset ext fuel s sa with
        | error e => rw [hr] at h; exact absurd h (by simp)
        | ok smid =>
          rw [hr] at h
          exact sameCore_trans (hreg s sa smid hr) (ih smid warn s₂ h)

theorem registerAsset_core {ext : flexxstore.Externals} :
    ∀ fuel s a s₂, flexxstore.registerAsset ext fuel s a = .ok s₂ → sameCore s s₂ := by
  intro fuel
  induction fuel with
  | zero =>
    intro s a s₂ h
    simp [flexxstore.registerAsset] at h
  | succ fuel ih =>
    intro s a s₂ h
    have hcol := @collectDeps_core_of_register ext fuel ih
    simp only [flexxstore.registerAsset] at h
    cases hcur : flexxstore.alGet s._assets a._name with
    | some cur =>
      simp only [hcur] at h
      by_cases hrem : a._remote.isSome
      · rw [if_pos hrem] at h
        cases h
        exact ⟨rfl, rfl, rfl⟩
      · rw [if_neg hrem] at h
        by_cases hok : cur = none ∨ cur = some a
        · rw [if_pos hok] at h
          cases h
          exact sameCore_refl _
        · rw [if_neg hok] at h
          exact absurd h (by simp)
    | none =>
      simp only [hcur] at h
      by_cases hsv : s._served = true
      · rw [if_pos hsv] at h
        cases hc : flexxstore.collectDeps ext fuel s a._deps true with
        | error e => rw [hc] at h; exact absurd h (by simp)
        | ok smid =>
          rw [hc] at h
          cases h
          exact hcol a._deps s true smid hc
      · rw [if_neg hsv] at h
        cases hga : s._store.get_asset a._name with
        | error e =>
          simp only [hga] at h
          exact absurd h (by simp)
        | ok r =>
          simp only [hga] at h
          by_cases hid : r = some a
          · rw [if_pos hid] at h
            exact sameCore_trans ⟨rfl, rfl, rfl⟩
              (hcol a._deps { s with _assets := s._assets ++ [(a._name, none)] }
                false s₂ h)
          · rw [if_neg hid] at h
            exact sameCore_trans ⟨rfl, rfl, rfl⟩
              (hcol a._deps { s with _assets := s._assets ++ [(a._name, some a)] }
                false s₂ h)

theorem extraClassesBranch_core {ext : flexxstore.Externals}
    {s s₂ : flexxstore.SessionAssets}
    (h : flexxstore.extraClassesBranch ext s = .ok s₂) : sameCore s s₂ := by
  simp only [flexxstore.extraClassesBranch] at h
  by_cases hg : s._extra_model_classes.length ≠ 0 ∧
      (flexxstore.alGet s._assets "extra-classes.js").isNone
  case neg =>
    rw [if_neg hg] at h
    cases h
    exact sameCore_refl _
  case pos =>
    rw [if_pos hg] at h
    cases hm1 : flexxstore.Asset.make ext (some "extra-classes.js")
        (some (s._extra_model_classes.map flexxstore.Source.cls)) (some [])
        (some (.list [])) with
    | error e =>
      simp only [hm1] at h
      exact absurd h (by simp)
    | ok a1 =>
      simp only [hm1] at h
      cases hr1 : flexxstore.registerAsset ext (s._store._assets.length + 1) s a1 with
      | error e =>
        simp only [hr1] at h
        exact absurd h (by simp)
      | ok smid =>
        simp only [hr1] at h
        cases hm2 : flexxstore.Asset.make ext (some "extra-classes.css")
            (some (s._extra_model_classes.map flexxstore.Source.cls)) (some []) none with
        | error e =>
          simp only [hm2] at h
          exact absurd h (by simp)
        | ok a2 =>
          simp only [hm2] at h
          exact sameCore_trans (registerAsset_core _ s a1 smid hr1)
            (registerAsset_core _ smid a2 s₂ h)

/-- The asset `embed/flexx-init.js` a fresh `SID`/`APP` session constructs. -/
def freshInitAsset : flexxstore.Asset :=
  ⟨"embed/flexx-init.js", none,
   [.str (flexxstore.initJsString "APP" "SID")], [], [], none, false,
   some (flexxstore.initJsString "APP" "SID")⟩

/-- C1, counterexample: the claim says a second call to the initial-document
composition on a served session raises `AlreadyServedError`; in the code
`get_assets_in_order` never reads `_served` (no such error exists), so the
second call on the already-served session composes the same document again
and succeeds. -/
theorem get_assets_in_order_twice_counterexample :
    freshSession.get_assets_in_order noExternals false =
      .ok (([some freshInitAsset, none], []), { freshSession with _served := true }) ∧
    flexxstore.SessionAssets.get_assets_in_order noExternals
        { freshSession with _served := true } false =
      .ok (([some freshInitAsset, none], []), { freshSession with _served := true }) := by
  constructor
  · decide
  · decide

/-- C1 (amended): composing the initial document flips `_served` to true but
a second call does not raise `AlreadyServedError`: `get_assets_in_order`
never reads the served flag (except through `_register_asset` for pending
extra model classes), so on a session with no pending extra model classes
its result is entirely independent of the flag — the composition simply
happens again. -/
theorem get_assets_in_order_served_independent (ext : flexxstore.Externals)
    (s : flexxstore.SessionAssets) (c : Bool)
    (h : s._extra_model_classes = []) :
    flexxstore.SessionAssets.get_assets_in_order ext { s with _served := true } c =
      flexxstore.SessionAssets.get_assets_in_order ext { s with _served := false } c := by
  have hb : ∀ b : Bool, flexxstore.extraClassesBranch ext { s with _served := b } =
      .ok { s with _served := b } := by
    intro b
    simp only [flexxstore.extraClassesBranch]
    rw [if_neg]
    intro hand
    apply hand.1
    show s._extra_model_classes.length = 0
    rw [h]
    rfl
  simp only [flexxstore.SessionAssets.get_assets_in_order, hb]
  rfl

/-- C1, witness: the served-independence theorem applied to the fresh
session, which has no pending extra model classes. -/
theorem get_assets_in_order_served_independent_witness :
    freshSession._extra_model_classes = [] ∧
    flexxstore.SessionAssets.get_assets_in_order noExternals
        { freshSession with _served := true } false =
      flexxstore.SessionAssets.get_assets_in_order noExternals
        { freshSession with _served := false } false :=
  ⟨rfl, get_assets_in_order_served_independent noExternals freshSession false rfl⟩

/-! ### Claim C7 -/

/-- The module-loader asset registered in the shared store for the C7 run. -/
def loaderAsset : flexxstore.Asset :=
  ⟨"flexx-loader.js", none, [.str "LOADER"], [], [], none, false, some "LOADER"⟩

/-- The pyscript standard-library asset registered in the shared store for
the C7 run. -/
def stdAsset : flexxstore.Asset :=
  ⟨"pyscript-std.js", none, [.str "STD"], [], [], none, false, some "STD"⟩

/-- A store holding the module loader and the standard-library support
module. -/
def bootStore : flexxstore.AssetStore :=
  ⟨[("flexx-loader.js", loaderAsset), ("pyscript-std.js", stdAsset)], []⟩

/-- A fresh session over `bootStore`. -/
def bootSession : flexxstore.SessionAssets :=
  ⟨bootStore, "SID", "APP", [], [], [], false, [], []⟩

/-- C7, counterexample: the claim puts the standard-library support module
first among the scripts, then the loader, then the synthetic init unit.  In
the code the js list starts with the synthetic `embed/flexx-init.js` unit,
the loader comes second, and `pyscript-std.js` is never prepended at all —
even when it is registered in the store. -/
theorem get_assets_in_order_bootstrap_counterexample :
    flexxstore.SessionAssets.get_assets_in_order noExternals bootSession true =
      .ok (([some freshInitAsset, some loaderAsset], [none]),
        { bootSession with _served := true }) ∧
    freshInitAsset._name = "embed/flexx-init.js" ∧
    loaderAsset._name = "flexx-loader.js" ∧
    stdAsset._name = "pyscript-std.js" ∧
    ¬ some stdAsset ∈ [some freshInitAsset, some loaderAsset] := by
  refine ⟨by decide, rfl, rfl, rfl, by decide⟩

/-- C7 (amended): whenever the initial-document composition succeeds, the
style reset (when requested) is prepended first among the styles, and the
script list starts with the synthetic `embed/flexx-init.js` unit carrying
the session id and application name, then the module loader looked up in
the shared store, then all other script assets; no standard-library support
module is prepended, and the returned session is marked served. -/
theorem get_assets_in_order_bootstrap (ext : flexxstore.Externals)
    (s : flexxstore.SessionAssets) (c : Bool)
    {js css : List (Option flexxstore.Asset)} {s₂ : flexxstore.SessionAssets}
    (h : flexxstore.SessionAssets.get_assets_in_order ext s c =
      .ok ((js, css), s₂)) :
    (∃ ia rest,
      flexxstore.Asset.make ext (some "embed/flexx-init.js")
          (some [flexxstore.Source.str (flexxstore.initJsString s._app_name s._id)])
          (some []) none = .ok ia ∧
      js = some ia :: flexxstore.alGet s._store._assets "flexx-loader.js" :: rest) ∧
    (c = true →
      ∃ rest₂, css = flexxstore.alGet s._store._assets "reset.css" :: rest₂) ∧
    s₂._served = true := by
  simp only [flexxstore.SessionAssets.get_assets_in_order] at h
  split at h
  · exact absurd h (by simp)
  rename_i modules hsort
  split at h
  · exact absurd h (by simp)
  rename_i jscss hfold
  split at h
  · exact absurd h (by simp)
  rename_i sE hextras
  obtain ⟨hstore, hid, happ⟩ := extraClassesBranch_core hextras
  split at h
  · exact absurd h (by simp)
  rename_i hlen
  have hlen0 : sE._assets.length = 0 := by omega
  have hassets : sE._assets = [] := List.length_eq_zero.mp hlen0
  have hga : ∀ name, suffixOk name = true →
      flexxstore.SessionAssets.get_asset sE name =
        .ok (flexxstore.alGet s._store._assets name) := by
    intro name hsuf
    simp [flexxstore.SessionAssets.get_asset, flexxstore.AssetStore.get_asset,
      flexxstore.alGet, hsuf, hassets, hstore]
  have hloader := hga "flexx-loader.js" (by decide)
  have hreset := hga "reset.css" (by decide)
  cases c with
  | false =>
    simp only [Bool.false_eq_true, if_false, hloader, hid, happ] at h
    split at h
    · exact absurd h (by simp)
    rename_i ia hmake
    simp only [Except.ok.injEq, Prod.mk.injEq] at h
    obtain ⟨⟨hjs, hcss⟩, hs₂⟩ := h
    refine ⟨⟨ia, jscss.1, hmake, hjs.symm⟩, ?_, ?_⟩
    · intro hc; exact absurd hc (by simp)
    · rw [← hs₂]
  | true =>
    simp only [if_true, hreset, Except.map, hloader, hid, happ] at h
    split at h
    · exact absurd h (by simp)
    rename_i ia hmake
    simp only [Except.ok.injEq, Prod.mk.injEq] at h
    obtain ⟨⟨hjs, hcss⟩, hs₂⟩ := h
    refine ⟨⟨ia, jscss.1, hmake, hjs.symm⟩, ?_, ?_⟩
    · intro _; exact ⟨jscss.2, hcss.symm⟩
    · rw [← hs₂]

/-- C7, witness: the bootstrap-order theorem applied to the concrete
session over `bootStore`, where the composition succeeds with script list
`[init, loader]` and style list `[None]`. -/
theorem get_assets_in_order_bootstrap_witness :
    (∃ ia rest,
      flexxstore.Asset.make noExternals (some "embed/flexx-init.js")
          (some [flexxstore.Source.str
            (flexxstore.initJsString bootSession._app_name bootSession._id)])
          (some []) none = .ok ia ∧
      ([some freshInitAsset, some loaderAsset] : List (Option flexxstore.Asset)) =
        some ia :: flexxstore.alGet bootSession._store._assets "flexx-loader.js" ::
          rest) ∧
    (true = true →
      ∃ rest₂, ([none] : List (Option flexxstore.Asset)) =
        flexxstore.alGet bootSession._store._assets "reset.css" :: rest₂) ∧
    ({ bootSession with _served := true })._served = true :=
  get_assets_in_order_bootstrap noExternals bootSession true (by decide)
